import Mathlib

/-!
Verification of the heap-allocator repository (three variants of the same
engine: `src/mm.c` — explicit single free list, footerless headers;
`src/unnamed/part_000` — single free list with footers;
`src/unnamed/part_001` — segregated free lists, footerless headers).

The development has three layers:

* a placement-engine layer modelling the `_allocate` search loops of the
  three variants over the abstract traversal order of the free list(s):
  each free block is a pair `(id, size)` and the search only ever reads
  sizes, exactly as the C loops only read `GET_SIZE(GET_HEADER(ptr))`;
* a word-level memory layer (`W`) translating the pointer/macro code of
  `src/mm.c` (`READ`/`WRITE`/`PACK`/`GET_*`, `_insert_free_block`,
  `_delete_free_block`, `_merge_free_blocks`, `_build`, `_extend_heap`)
  over a byte-addressed word memory `Nat → Nat`;
* a block-level heap machine (`S`) for `src/mm.c` whose state is the list
  of blocks between prologue and epilogue in heap order (each block keeps
  the size, ALLOC bit and PREV_ALLOC bit stored in its header) together
  with the free list as the list of payload addresses in chain order and
  the PREV_ALLOC bit of the epilogue word.  The in-band doubly linked
  list of the C code is represented by that address list (insertion at
  the head, unlinking = erasing the address); free-block footers, which
  the code keeps equal to the header (spec invariant 6), are represented
  by the size field itself.  Header size fields are modelled as
  unbounded naturals: the 32-bit packing limit (blocks of 2^32 bytes or
  more) is outside the modelled regime; the one place where machine
  wraparound is deliberately modelled is `calloc`'s `size_t` product.
-/

namespace Fit

/-- a block fits the request when its size is at least the request;
`now_size >= size` in the search loops. -/
def fitsReq (req : Nat) (x : Nat × Nat) : Bool := req ≤ x.2

/-- best-fit accumulator update: translated from the loop body
`if (best_fit == NULL || now_size < best_fit_size) { best_fit = ptr; ... }`
shared by all three `_allocate` variants. -/
def combine (best : Option (Nat × Nat)) (x : Nat × Nat) : Option (Nat × Nat) :=
  match best with
  | none => some x
  | some b => if x.2 < b.2 then some x else some b

/-- smallest-size element of a list of candidate blocks, ties going to the
earliest, starting from accumulator `best`. -/
def bestOf (best : Option (Nat × Nat)) (l : List (Nat × Nat)) : Option (Nat × Nat) :=
  l.foldl combine best

/-- the claim-side bound on the best-fit search: the smallest-fitting block
among the first `maxFit` fitting blocks of the traversal, in traversal
order (ties to the earlier block). -/
def boundedBestFit (maxFit req : Nat) (l : List (Nat × Nat)) : Option (Nat × Nat) :=
  bestOf none ((l.filter (fitsReq req)).take maxFit)

/-- number of non-fitting blocks of a traversal. -/
def nonfitCount (req : Nat) (l : List (Nat × Nat)) : Nat :=
  (l.filter (fun x => ! fitsReq req x)).length

end Fit

namespace MMC

/-- MAX_FIT of `src/mm.c` (line 74). -/
def MAX_FIT : Nat := 6

/-- MAX_NFIT of `src/mm.c` (line 75). -/
def MAX_NFIT : Nat := 28

/-- the search loop of `_allocate` in `src/mm.c` (lines 199-223) over the
free-list traversal: `best`/`fitCnt`/`nfitCnt` are `best_fit` (with
`best_fit_size`), `fit_cnt` and `nfit_cnt`. -/
def allocGo (req : Nat) : List (Nat × Nat) → Option (Nat × Nat) → Nat → Nat → Option (Nat × Nat)
  | [], best, _, _ => best
  | x :: l, best, fitCnt, nfitCnt =>
    if Fit.fitsReq req x then
      let best' := Fit.combine best x
      if fitCnt + 1 = MAX_FIT then best' else allocGo req l best' (fitCnt + 1) nfitCnt
    else
      if MAX_NFIT < nfitCnt + 1 ∧ fitCnt ≠ 0 then best
      else allocGo req l best fitCnt (nfitCnt + 1)

/-- `_allocate` of `src/mm.c`: the loop starting from `free_blks` with all
counters zero; returns NULL (`none`) when no fit was found. -/
def allocate (req : Nat) (l : List (Nat × Nat)) : Option (Nat × Nat) :=
  allocGo req l none 0 0

/-- the prefix of the traversal that `_allocate` of `src/mm.c` examines:
it ends with the `MAX_FIT`-th fitting block, or with the non-fitting block
that takes the total non-fit count beyond `MAX_NFIT` when a fit has been
seen, or at the end of the list. -/
def examined (req : Nat) : List (Nat × Nat) → Nat → Nat → List (Nat × Nat)
  | [], _, _ => []
  | x :: l, fitCnt, nfitCnt =>
    if Fit.fitsReq req x then
      if fitCnt + 1 = MAX_FIT then [x] else x :: examined req l (fitCnt + 1) nfitCnt
    else
      if MAX_NFIT < nfitCnt + 1 ∧ fitCnt ≠ 0 then [x]
      else x :: examined req l fitCnt (nfitCnt + 1)

end MMC

namespace P0

/-- the search loop of `_allocate` in `src/unnamed/part_000` (lines
181-201): best fit among the first 42 fits, no non-fit bound. -/
def allocGo (req : Nat) : List (Nat × Nat) → Option (Nat × Nat) → Nat → Option (Nat × Nat)
  | [], best, _ => best
  | x :: l, best, fitCnt =>
    if Fit.fitsReq req x then
      let best' := Fit.combine best x
      if fitCnt + 1 = 42 then best' else allocGo req l best' (fitCnt + 1)
    else allocGo req l best fitCnt

/-- `_allocate` of `src/unnamed/part_000`. -/
def allocate (req : Nat) (l : List (Nat × Nat)) : Option (Nat × Nat) :=
  allocGo req l none 0

end P0

namespace P1

/-- the 17 size-class thresholds of `src/unnamed/part_001` (line 70). -/
def threshold : List Nat :=
  [32, 48, 64, 128, 256, 512, 1024, 2048, 4096, 8192, 16384, 32768,
   65536, 131072, 262144, 524288, 1048576]

/-- auxiliary scan for `_get_level`: first index whose threshold is at
least the size, counting from `i`. -/
def getLevelAux (size : Nat) : List Nat → Nat → Nat
  | [], i => i
  | t :: ts, i => if size ≤ t then i else getLevelAux size ts (i + 1)

/-- `_get_level` of `src/unnamed/part_001` (lines 75-82): the size class of
a block size; class 17 (`max_level`) collects everything above the last
threshold. -/
def getLevel (size : Nat) : Nat := getLevelAux size threshold 0

/-- the inner loop of `_allocate` in `src/unnamed/part_001` (lines
208-219): walk one class list; `Sum.inl` is the early `return best_fit`
on the 42nd fit, `Sum.inr` falls out of the class with the accumulated
best and fit count. -/
def segInner (req : Nat) : List (Nat × Nat) → Option (Nat × Nat) → Nat →
    Sum (Option (Nat × Nat)) (Option (Nat × Nat) × Nat)
  | [], best, fitCnt => Sum.inr (best, fitCnt)
  | x :: l, best, fitCnt =>
    if Fit.fitsReq req x then
      let best' := Fit.combine best x
      if fitCnt + 1 = 42 then Sum.inl best' else segInner req l best' (fitCnt + 1)
    else segInner req l best fitCnt

/-- the outer loop of `_allocate` in `src/unnamed/part_001` (lines
207-224): classes from the request's class upwards; after finishing a
class with a non-NULL best, return it; after the last class return NULL. -/
def segOuter (req : Nat) : List (List (Nat × Nat)) → Option (Nat × Nat) → Nat →
    Option (Nat × Nat)
  | [], _, _ => none
  | c :: rest, best, fitCnt =>
    match segInner req c best fitCnt with
    | Sum.inl b => b
    | Sum.inr (b, fitCnt') => if b ≠ none then b else segOuter req rest b fitCnt'

/-- `_allocate` of `src/unnamed/part_001`: `freeBlks` is the array of the
18 class lists (index 0 to `max_level` = 17); the search starts at the
class of the request. -/
def allocate (req : Nat) (freeBlks : List (List (Nat × Nat))) : Option (Nat × Nat) :=
  segOuter req (freeBlks.drop (getLevel req)) none 0

/-- the traversal order of the segregated search: the class lists from the
request's class upwards, concatenated. -/
def traversal (req : Nat) (freeBlks : List (List (Nat × Nat))) : List (Nat × Nat) :=
  (freeBlks.drop (getLevel req)).flatten

/-- ordering between two class lists: every block of the first is
strictly smaller than every block of the second. -/
def classLT (c d : List (Nat × Nat)) : Prop := ∀ x ∈ c, ∀ y ∈ d, x.2 < y.2

/-- every block is filed in the class of its size: the free-list-index
invariant of the segregated variant (`_insert_free_block` files a block at
`_get_level(GET_SIZE(GET_HEADER(ptr)))`). -/
def WF (freeBlks : List (List (Nat × Nat))) : Prop :=
  ∀ i, ∀ x ∈ freeBlks.getD i [], getLevel x.2 = i

end P1

namespace ClaimC7

/-- Modelled from the spec: the single-list search rule as claim C7 states
it — non-fitting blocks are counted only after the first fit, and reaching
`MAX_NFIT = 28` of them returns the best fit so far.  This is the
claim-side definition to be compared with `MMC.allocate`. -/
def search (req : Nat) : List (Nat × Nat) → Option (Nat × Nat) → Nat → Nat → Option (Nat × Nat)
  | [], best, _, _ => best
  | x :: l, best, fitCnt, nfitCnt =>
    if Fit.fitsReq req x then
      let best' := Fit.combine best x
      if fitCnt + 1 = MMC.MAX_FIT then best' else search req l best' (fitCnt + 1) nfitCnt
    else
      if fitCnt ≠ 0 then
        if nfitCnt + 1 = MMC.MAX_NFIT then best
        else search req l best fitCnt (nfitCnt + 1)
      else search req l best fitCnt nfitCnt

/-- the claim-side search from the head of the list. -/
def searchTop (req : Nat) (l : List (Nat × Nat)) : Option (Nat × Nat) :=
  search req l none 0 0

end ClaimC7

namespace W

/-- word memory of the heap: the 32-bit word stored at each (4-aligned)
byte address.  `WRITE` truncates to 32 bits like a store through
`(unsigned int *)`. -/
def Mem : Type := Nat → Nat

/-- `READ(p)`. -/
def READ (m : Mem) (p : Nat) : Nat := m p

/-- `WRITE(p, val)`. -/
def WRITE (m : Mem) (p v : Nat) : Mem := fun q => if q = p then v % 2 ^ 32 else m q

/-- `PACK(size, alloc)` is `size | alloc`; every invocation in the source
has `size` a multiple of 8 and `alloc < 8`, where bitwise or coincides
with addition. -/
def PACK (size alloc : Nat) : Nat := size + alloc

/-- `GET_SIZE(p)` is `READ(p) & ~0x7`: the word with its low three bits
cleared. -/
def GET_SIZE (m : Mem) (p : Nat) : Nat := READ m p - READ m p % 8

/-- `GET_ALLOC(p)` is `READ(p) & 0x1`. -/
def GET_ALLOC (m : Mem) (p : Nat) : Nat := READ m p % 2

/-- `GET_PREALLOC(p)` is `READ(p) & 0x2`. -/
def GET_PREALLOC (m : Mem) (p : Nat) : Nat := READ m p % 4 - READ m p % 2

/-- `SET_PREALLOC(p)` is `*p |= 2`. -/
def SET_PREALLOC (m : Mem) (p : Nat) : Mem :=
  WRITE m p (READ m p - GET_PREALLOC m p + 2)

/-- `RESET_PREALLOC(p)` is `*p &= ~0x2`. -/
def RESET_PREALLOC (m : Mem) (p : Nat) : Mem :=
  WRITE m p (READ m p - GET_PREALLOC m p)

/-- `GET_HEADER(bp)`. -/
def GET_HEADER (bp : Nat) : Nat := bp - 4

/-- `GET_FOOTER(bp)`. -/
def GET_FOOTER (m : Mem) (bp : Nat) : Nat := bp + GET_SIZE m (GET_HEADER bp) - 8

/-- `PRED_FOOTER(bp)`. -/
def PRED_FOOTER (bp : Nat) : Nat := bp - 8

/-- `SUCC_HEADER(bp)`. -/
def SUCC_HEADER (m : Mem) (bp : Nat) : Nat := bp + GET_SIZE m (GET_HEADER bp) - 4

/-- `PRED_BLK(bp)`. -/
def PRED_BLK (m : Mem) (bp : Nat) : Nat := bp - GET_SIZE m (PRED_FOOTER bp)

/-- `SUCC_BLK(bp)`. -/
def SUCC_BLK (m : Mem) (bp : Nat) : Nat := bp + GET_SIZE m (GET_HEADER bp)

/-- `SUCC_FREE(bp)`: stored offsets are relative to `heap_ptr` (`hp`),
with 0 denoting NULL; the model keeps NULL as address 0. -/
def SUCC_FREE (m : Mem) (hp bp : Nat) : Nat :=
  if READ m (bp + 4) = 0 then 0 else READ m (bp + 4) + hp

/-- `PRED_FREE(bp)`. -/
def PRED_FREE (m : Mem) (hp bp : Nat) : Nat :=
  if READ m bp = 0 then 0 else READ m bp + hp

/-- `SET_PRED_FREE(bp, val)`. -/
def SET_PRED_FREE (m : Mem) (hp bp v : Nat) : Mem :=
  WRITE m bp (if v = 0 then 0 else v - hp)

/-- `SET_SUCC_FREE(bp, val)`. -/
def SET_SUCC_FREE (m : Mem) (hp bp v : Nat) : Mem :=
  WRITE m (bp + 4) (if v = 0 then 0 else v - hp)

/-- `_insert_free_block` of `src/mm.c` (lines 84-98); the state pairs the
memory with the `free_blks` head pointer (0 for NULL). -/
def insertFreeBlock (hp : Nat) (st : Mem × Nat) (ptr : Nat) : Mem × Nat :=
  if ptr = 0 then st
  else if st.2 = 0 then
    let m1 := SET_PRED_FREE st.1 hp ptr 0
    let m2 := SET_SUCC_FREE m1 hp ptr 0
    (m2, ptr)
  else
    let m1 := SET_SUCC_FREE st.1 hp ptr st.2
    let m2 := SET_PRED_FREE m1 hp st.2 ptr
    let m3 := SET_PRED_FREE m2 hp ptr 0
    (m3, ptr)

/-- `_delete_free_block` of `src/mm.c` (lines 101-122). -/
def deleteFreeBlock (hp : Nat) (st : Mem × Nat) (ptr : Nat) : Mem × Nat :=
  if ptr = 0 then st
  else
    let succFree := SUCC_FREE st.1 hp ptr
    if st.2 = ptr then
      if succFree = 0 then (st.1, 0)
      else (SET_PRED_FREE st.1 hp succFree 0, succFree)
    else
      let predFree := PRED_FREE st.1 hp ptr
      if succFree = 0 then (SET_SUCC_FREE st.1 hp predFree 0, st.2)
      else
        let m1 := SET_SUCC_FREE st.1 hp predFree succFree
        let m2 := SET_PRED_FREE m1 hp succFree predFree
        (m2, st.2)

/-- `_merge_free_blocks` of `src/mm.c` (lines 125-154): returns the new
state and the surviving block pointer.  Each macro argument is
re-evaluated against the current memory exactly as the C sequence does. -/
def mergeFreeBlocks (hp : Nat) (st : Mem × Nat) (ptr : Nat) : (Mem × Nat) × Nat :=
  let predAlloc := GET_PREALLOC st.1 (GET_HEADER ptr)
  let succAlloc := GET_ALLOC st.1 (SUCC_HEADER st.1 ptr)
  if predAlloc ≠ 0 ∧ succAlloc ≠ 0 then
    let m1 := RESET_PREALLOC st.1 (GET_HEADER (SUCC_BLK st.1 ptr))
    (insertFreeBlock hp (m1, st.2) ptr, ptr)
  else if predAlloc ≠ 0 then
    let st1 := deleteFreeBlock hp st (SUCC_BLK st.1 ptr)
    let newsize := GET_SIZE st1.1 (GET_HEADER ptr) + GET_SIZE st1.1 (SUCC_HEADER st1.1 ptr)
    let m2 := WRITE st1.1 (GET_HEADER ptr) (PACK newsize predAlloc)
    let m3 := WRITE m2 (GET_FOOTER m2 ptr) (PACK newsize 0)
    (insertFreeBlock hp (m3, st1.2) ptr, ptr)
  else if succAlloc ≠ 0 then
    let st1 := deleteFreeBlock hp st (PRED_BLK st.1 ptr)
    let newsize := GET_SIZE st1.1 (GET_HEADER ptr) + GET_SIZE st1.1 (PRED_FOOTER ptr)
    let predAlloc' := GET_PREALLOC st1.1 (GET_HEADER (PRED_BLK st1.1 ptr))
    let m2 := WRITE st1.1 (GET_HEADER (PRED_BLK st1.1 ptr)) (PACK newsize predAlloc')
    let m3 := WRITE m2 (GET_FOOTER m2 ptr) (PACK newsize 0)
    let m4 := RESET_PREALLOC m3 (GET_HEADER (SUCC_BLK m3 ptr))
    let ptr' := PRED_BLK m4 ptr
    (insertFreeBlock hp (m4, st1.2) ptr', ptr')
  else
    let st1 := deleteFreeBlock hp st (PRED_BLK st.1 ptr)
    let st2 := deleteFreeBlock hp st1 (SUCC_BLK st1.1 ptr)
    let newsize := GET_SIZE st2.1 (GET_HEADER ptr) + GET_SIZE st2.1 (PRED_FOOTER ptr) +
      GET_SIZE st2.1 (SUCC_HEADER st2.1 ptr)
    let predAlloc' := GET_PREALLOC st2.1 (GET_HEADER (PRED_BLK st2.1 ptr))
    let m2 := WRITE st2.1 (GET_HEADER (PRED_BLK st2.1 ptr)) (PACK newsize predAlloc')
    let m3 := WRITE m2 (GET_FOOTER m2 (SUCC_BLK m2 ptr)) (PACK newsize 0)
    let ptr' := PRED_BLK m3 ptr
    (insertFreeBlock hp (m3, st2.2) ptr', ptr')

/-- `_build` of `src/mm.c` (lines 157-178); `size_t` subtraction
`blksize - size` is modelled with its 64-bit wraparound. -/
def build (hp : Nat) (st : Mem × Nat) (ptr : Nat) (size : Nat) : Mem × Nat :=
  if ptr = 0 then st
  else
    let st0 := deleteFreeBlock hp st ptr
    let blksize := GET_SIZE st0.1 (GET_HEADER ptr)
    let prealloc := GET_PREALLOC st0.1 (GET_HEADER ptr)
    if 16 < (blksize + 2 ^ 64 - size) % 2 ^ 64 then
      let m1 := WRITE st0.1 (GET_HEADER ptr) (PACK size (prealloc ||| 1))
      let m2 := WRITE m1 (GET_FOOTER m1 ptr) (PACK size 1)
      let split := SUCC_BLK m2 ptr
      let blksize' := (blksize + 2 ^ 64 - size) % 2 ^ 64
      let m3 := WRITE m2 (GET_HEADER split) (PACK blksize' 2)
      let m4 := WRITE m3 (GET_FOOTER m3 split) (PACK blksize' 0)
      (mergeFreeBlocks hp (m4, st0.2) split).1
    else
      let m1 := WRITE st0.1 (GET_HEADER ptr) (PACK blksize (prealloc ||| 1))
      let m2 := WRITE m1 (GET_FOOTER m1 ptr) (PACK blksize 1)
      let succ := SUCC_BLK m2 ptr
      (SET_PREALLOC m2 (GET_HEADER succ), st0.2)

/-- the word-count rounding of `_extend_heap` (line 182):
`(extend_size & 1) ? ((extend_size + 1) * WSIZE) : (extend_size * WSIZE)`. -/
def roundWords (words : Nat) : Nat := if words % 2 = 1 then (words + 1) * 4 else words * 4

/-- the write phase of `_extend_heap` of `src/mm.c` (lines 181-191):
round the word count, take the fresh region from `mem_sbrk` (whose
result is the old high end, one word past the epilogue header
`heap_end`), write the new header over the old epilogue preserving its
PREV_ALLOC bit, write the footer, write the fresh epilogue.  Returns the
new state, the new `heap_end` and the block pointer that line 192 hands
to `_merge_free_blocks`; `none` models `mem_sbrk` failure. -/
def extendWrites (_hp : Nat) (st : Mem × Nat) (heapEnd extendWords : Nat) (sbrkOK : Bool) :
    Option ((Mem × Nat) × Nat × Nat) :=
  let extendSize := roundWords extendWords % 2 ^ 64
  if sbrkOK then
    let ptr := heapEnd + 4
    let prealloc := GET_PREALLOC st.1 heapEnd
    let m1 := WRITE st.1 (GET_HEADER ptr) (PACK extendSize prealloc)
    let m2 := WRITE m1 (GET_FOOTER m1 ptr) (PACK extendSize 0)
    let heapEnd' := GET_HEADER (SUCC_BLK m2 ptr)
    let m3 := WRITE m2 heapEnd' (PACK 0 1)
    some ((m3, st.2), heapEnd', ptr)
  else none

/-- `_extend_heap` of `src/mm.c` (lines 181-193): the write phase followed
by the hand-off to the coalescer. -/
def extendHeap (hp : Nat) (st : Mem × Nat) (heapEnd extendWords : Nat) (sbrkOK : Bool) :
    Option ((Mem × Nat) × Nat × Nat) :=
  match extendWrites hp st heapEnd extendWords sbrkOK with
  | none => none
  | some (st1, heapEnd', ptr) =>
    let r := mergeFreeBlocks hp st1 ptr
    some (r.1, heapEnd', r.2)

end W

namespace S

/-- one heap block as its header describes it: the size in bytes, the
ALLOC bit and the PREV_ALLOC bit stored in the header word. -/
structure Block where
  size : Nat
  alloc : Bool
  prealloc : Bool
deriving Repr, DecidableEq

/-- out-of-range read default; the epilogue is a zero-size allocated word,
so reading past the last block behaves like reading the epilogue. -/
def dummy : Block := ⟨0, true, true⟩

/-- the allocator state of `src/mm.c`: the heap base returned by the
initial `mem_sbrk`, the blocks strictly between prologue and epilogue in
heap order, the free list as the payload addresses in chain order
(head = `free_blks`), and the PREV_ALLOC bit of the epilogue header. -/
structure Heap where
  lo : Nat
  blocks : List Block
  freeList : List Nat
  epiPrealloc : Bool
deriving Repr, DecidableEq

/-- total byte size of a run of blocks. -/
def sumSizes (bs : List Block) : Nat := (bs.map Block.size).sum

/-- payload address of block `i`: the prologue occupies bytes
`lo+4 .. lo+20`, the first block's header sits at `lo+20` (the position
of the initial epilogue), so its payload starts at `lo+24`. -/
def payloadAddr (lo : Nat) (bs : List Block) (i : Nat) : Nat :=
  lo + 24 + sumSizes (bs.take i)

/-- scan for the block whose payload address is `a`; `cur` is the payload
address of the block at index `i`. -/
def idxFrom (a : Nat) : List Block → Nat → Nat → Option Nat
  | [], _, _ => none
  | b :: bs, cur, i => if cur = a then some i else idxFrom a bs (cur + b.size) (i + 1)

/-- index of the block with payload address `a`. -/
def idxOfAddr (s : Heap) (a : Nat) : Option Nat := idxFrom a s.blocks (s.lo + 24) 0

/-- ALLOC bit of block `i`, the epilogue (any index past the end) counting
as allocated. -/
def allocAt (bs : List Block) (i : Nat) : Bool := (bs.getD i dummy).alloc

/-- write the PREV_ALLOC bit of block `i`'s header; index `blocks.length`
is the epilogue header. -/
def setPre (s : Heap) (i : Nat) (v : Bool) : Heap :=
  if i < s.blocks.length then
    let b := s.blocks.getD i dummy
    ⟨s.lo, s.blocks.set i ⟨b.size, b.alloc, v⟩, s.freeList, s.epiPrealloc⟩
  else ⟨s.lo, s.blocks, s.freeList, v⟩

/-- `_insert_free_block` (lines 84-98): prepend the address to the chain. -/
def insertAddr (s : Heap) (a : Nat) : Heap := ⟨s.lo, s.blocks, a :: s.freeList, s.epiPrealloc⟩

/-- `_merge_free_blocks` of `src/mm.c` (lines 125-154) on block index `i`
(a block just marked free), returning the new state and the index of the
surviving block.  The case split reads the stored PREV_ALLOC bit and the
successor's ALLOC bit exactly as lines 126-127 do; `_delete_free_block`
is the erasure of the neighbour's address from the chain.  The
pred-free cases with `i = 0` would walk into the prologue; they are
unreachable while the prologue is allocated and are left as the
identity. -/
def merge (s : Heap) (i : Nat) : Heap × Nat :=
  let bs := s.blocks
  let b := bs.getD i dummy
  if b.prealloc ∧ allocAt bs (i + 1) then
    (insertAddr (setPre s (i + 1) false) (payloadAddr s.lo bs i), i)
  else if b.prealloc then
    let c := bs.getD (i + 1) dummy
    let bs' := bs.take i ++ ⟨b.size + c.size, false, b.prealloc⟩ :: bs.drop (i + 2)
    let fl' := s.freeList.erase (payloadAddr s.lo bs (i + 1))
    (⟨s.lo, bs', payloadAddr s.lo bs i :: fl', s.epiPrealloc⟩, i)
  else if allocAt bs (i + 1) then
    if i = 0 then (s, i)
    else
      let p := bs.getD (i - 1) dummy
      let bs' := bs.take (i - 1) ++ ⟨p.size + b.size, false, p.prealloc⟩ :: bs.drop (i + 1)
      let s2 : Heap := ⟨s.lo, bs', s.freeList.erase (payloadAddr s.lo bs (i - 1)), s.epiPrealloc⟩
      (insertAddr (setPre s2 i false) (payloadAddr s.lo bs (i - 1)), i - 1)
  else
    if i = 0 then (s, i)
    else
      let p := bs.getD (i - 1) dummy
      let c := bs.getD (i + 1) dummy
      let bs' := bs.take (i - 1) ++ ⟨p.size + b.size + c.size, false, p.prealloc⟩ :: bs.drop (i + 2)
      let fl' := (s.freeList.erase (payloadAddr s.lo bs (i - 1))).erase (payloadAddr s.lo bs (i + 1))
      (⟨s.lo, bs', payloadAddr s.lo bs (i - 1) :: fl', s.epiPrealloc⟩, i - 1)

/-- `_build` of `src/mm.c` (lines 157-178) on block index `i`: unlink the
block, then either split (when `blksize - size > ESIZE`; the `size_t`
subtraction coincides with the ideal one at every call site, where the
chosen block always fits the request) and coalesce the free remainder, or
allocate the whole block and set the successor's PREV_ALLOC bit. -/
def build (s : Heap) (i : Nat) (size : Nat) : Heap :=
  let bs := s.blocks
  let b := bs.getD i dummy
  let s0 : Heap := ⟨s.lo, bs, s.freeList.erase (payloadAddr s.lo bs i), s.epiPrealloc⟩
  if size + 16 < b.size then
    let bs' := bs.take i ++ ⟨size, true, b.prealloc⟩ :: ⟨b.size - size, false, true⟩ :: bs.drop (i + 1)
    (merge ⟨s0.lo, bs', s0.freeList, s0.epiPrealloc⟩ (i + 1)).1
  else
    let bs' := bs.set i ⟨b.size, true, b.prealloc⟩
    setPre ⟨s0.lo, bs', s0.freeList, s0.epiPrealloc⟩ (i + 1) true

/-- `_extend_heap` of `src/mm.c` (lines 181-193) with a successful
`mem_sbrk`: round the word count up to an even number of words, frame the
fresh bytes as a free block whose header takes the old epilogue's
PREV_ALLOC bit, write the fresh epilogue (`PACK(0,1)`: PREV_ALLOC clear),
and hand the block to the coalescer.  Returns the state and the index of
the surviving block. -/
def extendHeap (s : Heap) (words : Nat) : Heap × Nat :=
  let rounded := if words % 2 = 1 then (words + 1) * 4 else words * 4
  let bs' := s.blocks ++ [⟨rounded, false, s.epiPrealloc⟩]
  merge ⟨s.lo, bs', s.freeList, false⟩ s.blocks.length

/-- block size found at a free-list address (`GET_SIZE(GET_HEADER(ptr))`
for a chain pointer). -/
def sizeAtAddr (s : Heap) (a : Nat) : Nat :=
  match idxOfAddr s a with
  | some i => (s.blocks.getD i dummy).size
  | none => 0

/-- `_allocate` of `src/mm.c` over the abstract chain: the traversal
order is the free list, each element read through its header. -/
def allocate (s : Heap) (req : Nat) : Option Nat :=
  (MMC.allocate req (s.freeList.map fun a => (a, sizeAtAddr s a))).map Prod.fst

/-- the adjusted request of `malloc` (line 257):
`MAX(ESIZE, DSIZE * ((size + WSIZE + DSIZE - 1) / DSIZE))`. -/
def adjust (n : Nat) : Nat := max 16 (8 * ((n + 4 + 8 - 1) / 8))

/-- `malloc` of `src/mm.c` (lines 250-270); `sbrkOK` is the outcome
`mem_sbrk` would report for this call's extension.  The inner `none`
lookup branch cannot fire while the free-list entries are block
addresses (the heap invariant); it leaves the state unchanged. -/
def malloc (s : Heap) (n : Nat) (sbrkOK : Bool) : Heap × Option Nat :=
  if n = 0 then (s, none)
  else
    let adj := adjust n
    match allocate s adj with
    | some a =>
      match idxOfAddr s a with
      | some i => (build s i adj, some a)
      | none => (s, some a)
    | none =>
      if sbrkOK then
        let r := extendHeap s (adj / 4)
        (build r.1 r.2 adj, some (payloadAddr r.1.lo r.1.blocks r.2))
      else (s, none)

/-- `free` of `src/mm.c` (lines 276-285): rewrite the header with
ALLOC = 0 keeping PREV_ALLOC, write the footer, coalesce.  Freeing a
pointer the allocator never issued or freeing twice is undefined
behaviour (spec section 7); the model leaves the state unchanged there. -/
def free (s : Heap) (a : Nat) : Heap :=
  if a = 0 then s
  else
    match idxOfAddr s a with
    | some i =>
      let b := s.blocks.getD i dummy
      if b.alloc then
        (merge ⟨s.lo, s.blocks.set i ⟨b.size, false, b.prealloc⟩, s.freeList, s.epiPrealloc⟩ i).1
      else s
    | none => s

/-- `realloc` of `src/mm.c` (lines 291-306).  When the inner `malloc`
fails the C code dereferences the null result (claim C1); the state at
that point is the post-`malloc` state and no pointer is produced. -/
def realloc (s : Heap) (a n : Nat) (ok : Bool) : Heap × Option Nat :=
  if n = 0 then (free s a, none)
  else if a = 0 then malloc s n ok
  else
    let r := malloc s n ok
    match r.2 with
    | none => (r.1, none)
    | some q => (free r.1 a, some q)

/-- `calloc` of `src/mm.c` (lines 311-316): the `size_t` product wraps
modulo `2 ^ 64`; `memset` touches no block metadata. -/
def calloc (s : Heap) (m n : Nat) (ok : Bool) : Heap × Option Nat :=
  malloc s ((m * n) % 2 ^ 64) ok

/-- `mm_init` of `src/mm.c` (lines 228-242): pad, prologue, epilogue with
PREV_ALLOC set (the prologue is allocated), no blocks, empty free list. -/
def init (lo : Nat) : Heap := ⟨lo, [], [], true⟩

/-- one public operation; allocating operations carry the outcome the
address provider would report if consulted. -/
inductive Op where
  | omalloc (n : Nat) (ok : Bool)
  | ofree (a : Nat)
  | orealloc (a n : Nat) (ok : Bool)
  | ocalloc (m n : Nat) (ok : Bool)
deriving Repr, DecidableEq

/-- one step of the public interface, with the returned payload pointer
when the operation produces one. -/
def step (s : Heap) : Op → Heap × Option Nat
  | Op.omalloc n ok => malloc s n ok
  | Op.ofree a => (free s a, none)
  | Op.orealloc a n ok => realloc s a n ok
  | Op.ocalloc m n ok => calloc s m n ok

/-- run a sequence of operations, collecting each step's result. -/
def runFrom (s : Heap) : List Op → Heap × List (Option Nat)
  | [] => (s, [])
  | op :: ops =>
    let r := step s op
    let r2 := runFrom r.1 ops
    (r2.1, r.2 :: r2.2)

/-- run from the initial state. -/
def run (lo : Nat) (ops : List Op) : Heap × List (Option Nat) := runFrom (init lo) ops

/-- the block-chain invariant relative to the ALLOC bit `p` of the
preceding block: every header's PREV_ALLOC bit records its predecessor's
ALLOC bit, no two adjacent blocks are both free, and every size is a
positive multiple of 8 of at least the minimum block size 16. -/
def chainOK : Bool → List Block → Bool
  | _, [] => true
  | p, b :: l =>
    (b.prealloc == p) && (p || b.alloc) && decide (b.size % 8 = 0) &&
      decide (16 ≤ b.size) && chainOK b.alloc l

/-- ALLOC bit of the last block of the run, `p` when the run is empty. -/
def allocEnd (p : Bool) (l : List Block) : Bool := l.foldl (fun _ b => b.alloc) p

/-- a free-list entry is the payload address of a free block. -/
def entryOK (s : Heap) (a : Nat) : Bool :=
  match idxOfAddr s a with
  | some i => !(s.blocks.getD i dummy).alloc
  | none => false

/-- the heap invariant: chain well-formed from the (allocated) prologue,
the epilogue's PREV_ALLOC bit records the last block's ALLOC bit, and the
free list is a duplicate-free list of free-block payload addresses. -/
def Inv (s : Heap) : Prop :=
  chainOK true s.blocks = true ∧ s.epiPrealloc = allocEnd true s.blocks ∧
    (∀ a ∈ s.freeList, entryOK s a = true) ∧ s.freeList.Nodup

/-- no two blocks adjacent in heap order are both free. -/
def noAdjacentFree (bs : List Block) : Prop :=
  List.Chain' (fun x y => x.alloc = true ∨ y.alloc = true) bs

/-- shape of the blocks after a just-freed block when the coalescer is
entered: sizes and the inner chain are sound, but the head's PREV_ALLOC
bit and its adjacency to the block before it are unconstrained (the
coalescer repairs them). -/
def postOK : List Block → Bool
  | [] => true
  | c :: rest =>
    decide (c.size % 8 = 0) && decide (16 ≤ c.size) && chainOK c.alloc rest

end S

namespace RC

/-- the copy length of `realloc` in `src/mm.c` (lines 300-303):
`MIN(oldsize, newsize) - WSIZE` where the sizes are the raw block sizes
read from the two headers. -/
def copyLen (oldBlk newBlk : Nat) : Nat := min oldBlk newBlk - 4

/-- the copy length of `realloc` in `src/unnamed/part_000` (lines
263-266): `MIN(oldsize, newsize) - DSIZE`. -/
def copyLenF (oldBlk newBlk : Nat) : Nat := min oldBlk newBlk - 8

/-- the payload bytes of the new block after `memcpy(newptr, oldptr,
cpysize - WSIZE)`: the copied prefix of the old payload followed by the
untouched rest of the new block's bytes. -/
def newPayload (oldData newData : List Nat) (oldBlk newBlk : Nat) : List Nat :=
  oldData.take (copyLen oldBlk newBlk) ++ newData.drop (copyLen oldBlk newBlk)

/-- the with-footer variant of `newPayload` (`src/unnamed/part_000`). -/
def newPayloadF (oldData newData : List Nat) (oldBlk newBlk : Nat) : List Nat :=
  oldData.take (copyLenF oldBlk newBlk) ++ newData.drop (copyLenF oldBlk newBlk)

/-- the adjusted request of `malloc` in `src/unnamed/part_000` (line 226):
`DSIZE * ((size + DSIZE - 1) / DSIZE + 1)`. -/
def adjustF (n : Nat) : Nat := 8 * ((n + 8 - 1) / 8 + 1)

end RC

namespace NullPath

/-- `realloc` of `src/mm.c` with the null dereference made explicit:
`none` marks the execution of line 300, `GET_SIZE(GET_HEADER(newptr))`
with `newptr = NULL`, reached whenever the inner `malloc` fails on a
non-null pointer and a positive size. -/
def reallocChecked (s : S.Heap) (a n : Nat) (ok : Bool) : Option (S.Heap × Option Nat) :=
  if n = 0 then some (S.free s a, none)
  else if a = 0 then some (S.malloc s n ok)
  else
    let r := S.malloc s n ok
    match r.2 with
    | none => none
    | some q => some (S.free r.1 a, some q)

/-- `calloc` of `src/mm.c` with the null dereference made explicit:
`none` marks `memset(NULL, 0, bytes)` with `bytes > 0` at line 314,
reached whenever the inner `malloc` fails and the wrapped byte count is
positive. -/
def callocChecked (s : S.Heap) (m n : Nat) (ok : Bool) : Option (S.Heap × Option Nat) :=
  let bytes := (m * n) % 2 ^ 64
  let r := S.malloc s bytes ok
  match r.2 with
  | none => if bytes = 0 then some (r.1, none) else none
  | some q => some (r.1, some q)

end NullPath

/-- a concrete memory for exercising the split path of `_build` in
`src/mm.c`: a free block of 48 bytes with its header at address 4
(payload pointer 8), successor-chain word zero, and an allocated
successor header at address 52. -/
def cxMem : W.Mem := fun p => if p = 4 then 48 else if p = 52 then 1 else 0

/-- the all-zero memory, for exercising `_extend_heap`. -/
def zeroMem : W.Mem := fun _ => 0

/-- a concrete segregated free-list array: class 3 (sizes 65..128) holds
seven blocks that all fit a request of 66, smallest last. -/
def cxFB : List (List (Nat × Nat)) :=
  [[], [], [], [(0, 100), (1, 98), (2, 96), (3, 94), (4, 92), (5, 90), (6, 70)]]

/-- a concrete single free list: one fitting block, then 28 non-fitting
blocks, then a better-fitting block. -/
def cxL7 : List (Nat × Nat) :=
  (0, 100) :: ((List.range 28).map fun k => (k + 1, 8)) ++ [(29, 40)]


theorem Fit.combine_ne_none (best : Option (Nat × Nat)) (x : Nat × Nat) :
    Fit.combine best x ≠ none := by
  cases best with
  | none => simp [Fit.combine]
  | some b => simp only [Fit.combine]; split <;> simp

theorem Fit.bestOf_append (best : Option (Nat × Nat)) (l₁ l₂ : List (Nat × Nat)) :
    Fit.bestOf best (l₁ ++ l₂) = Fit.bestOf (Fit.bestOf best l₁) l₂ := by
  simp [Fit.bestOf, List.foldl_append]

theorem Fit.bestOf_some_ne_none (l : List (Nat × Nat)) :
    ∀ b, Fit.bestOf (some b) l ≠ none := by
  induction l with
  | nil => intro b; simp [Fit.bestOf]
  | cons x l ih =>
    intro b
    have h := Fit.combine_ne_none (some b) x
    cases hc : Fit.combine (some b) x with
    | none => exact absurd hc h
    | some c =>
      simp only [Fit.bestOf, List.foldl_cons, hc]
      exact ih c

theorem Fit.bestOf_ne_none (best : Option (Nat × Nat)) (l : List (Nat × Nat)) (h : l ≠ []) :
    Fit.bestOf best l ≠ none := by
  cases l with
  | nil => exact absurd rfl h
  | cons x l =>
    have h' := Fit.combine_ne_none best x
    cases hc : Fit.combine best x with
    | none => exact absurd hc h'
    | some c =>
      simp only [Fit.bestOf, List.foldl_cons, hc]
      exact Fit.bestOf_some_ne_none l c

theorem Fit.bestOf_mem (l : List (Nat × Nat)) :
    ∀ best b, Fit.bestOf best l = some b → some b = best ∨ b ∈ l := by
  induction l with
  | nil => intro best b h; left; simpa [Fit.bestOf] using h.symm
  | cons x l ih =>
    intro best b h
    simp only [Fit.bestOf, List.foldl_cons] at h
    rcases ih (Fit.combine best x) b h with h1 | h1
    · cases best with
      | none =>
        simp only [Fit.combine] at h1
        right
        rw [Option.some_inj.mp h1]
        exact List.mem_cons_self x l
      | some a =>
        simp only [Fit.combine] at h1
        by_cases hlt : x.2 < a.2
        · rw [if_pos hlt] at h1
          right
          rw [Option.some_inj.mp h1]
          exact List.mem_cons_self x l
        · rw [if_neg hlt] at h1
          left; exact h1
    · right; right; exact h1

theorem Fit.bestOf_keeps (b : Nat × Nat) (l : List (Nat × Nat))
    (h : ∀ y ∈ l, ¬ y.2 < b.2) : Fit.bestOf (some b) l = some b := by
  induction l with
  | nil => rfl
  | cons x l ih =>
    have hx : ¬ x.2 < b.2 := h x (by simp)
    simp only [Fit.bestOf, List.foldl_cons, Fit.combine, if_neg hx]
    exact ih fun y hy => h y (by simp [hy])

theorem P0.allocGo_eq (req : Nat) (l : List (Nat × Nat)) :
    ∀ best fitCnt, fitCnt < 42 →
      P0.allocGo req l best fitCnt =
        Fit.bestOf best ((l.filter (Fit.fitsReq req)).take (42 - fitCnt)) := by
  induction l with
  | nil => intro best fc _; simp [P0.allocGo, Fit.bestOf]
  | cons x l ih =>
    intro best fc hfc
    by_cases hx : Fit.fitsReq req x
    · by_cases h42 : fc + 1 = 42
      · have h1 : 42 - fc = 1 := by omega
        simp [P0.allocGo, hx, h42, h1, List.filter_cons, Fit.bestOf]
      · have hlt : fc + 1 < 42 := by omega
        have hsub : 42 - fc = (42 - (fc + 1)) + 1 := by omega
        rw [show P0.allocGo req (x :: l) best fc =
            P0.allocGo req l (Fit.combine best x) (fc + 1) by
          simp [P0.allocGo, hx, h42]]
        rw [ih (Fit.combine best x) (fc + 1) hlt]
        rw [List.filter_cons_of_pos hx, hsub, List.take_succ_cons]
        simp [Fit.bestOf]
    · rw [show P0.allocGo req (x :: l) best fc = P0.allocGo req l best fc by
        simp [P0.allocGo, hx]]
      rw [ih best fc hfc, List.filter_cons_of_neg hx]

theorem MMC.allocGo_eq_examined (req : Nat) (l : List (Nat × Nat)) :
    ∀ best fitCnt nfitCnt,
      MMC.allocGo req l best fitCnt nfitCnt =
        Fit.bestOf best ((MMC.examined req l fitCnt nfitCnt).filter (Fit.fitsReq req)) := by
  induction l with
  | nil => intro best fc nc; simp [MMC.allocGo, MMC.examined, Fit.bestOf]
  | cons x l ih =>
    intro best fc nc
    by_cases hx : Fit.fitsReq req x
    · by_cases h6 : fc + 1 = MMC.MAX_FIT
      · simp [MMC.allocGo, MMC.examined, hx, h6, Fit.bestOf]
      · rw [show MMC.allocGo req (x :: l) best fc nc =
            MMC.allocGo req l (Fit.combine best x) (fc + 1) nc by
          simp [MMC.allocGo, hx, h6]]
        rw [show MMC.examined req (x :: l) fc nc = x :: MMC.examined req l (fc + 1) nc by
          simp [MMC.examined, hx, h6]]
        rw [List.filter_cons_of_pos hx, ih]
        simp [Fit.bestOf]
    · by_cases htr : MMC.MAX_NFIT < nc + 1 ∧ fc ≠ 0
      · simp [MMC.allocGo, MMC.examined, hx, htr, Fit.bestOf]
      · rw [show MMC.allocGo req (x :: l) best fc nc = MMC.allocGo req l best fc (nc + 1) by
          simp [MMC.allocGo, hx, htr]]
        rw [show MMC.examined req (x :: l) fc nc = x :: MMC.examined req l fc (nc + 1) by
          simp [MMC.examined, hx, htr]]
        rw [List.filter_cons_of_neg hx, ih]

theorem Fit.nonfitCount_cons_fit (req : Nat) (x : Nat × Nat) (l : List (Nat × Nat))
    (hx : Fit.fitsReq req x) : Fit.nonfitCount req (x :: l) = Fit.nonfitCount req l := by
  simp [Fit.nonfitCount, List.filter_cons, hx]

theorem Fit.nonfitCount_cons_nonfit (req : Nat) (x : Nat × Nat) (l : List (Nat × Nat))
    (hx : ¬ Fit.fitsReq req x) :
    Fit.nonfitCount req (x :: l) = Fit.nonfitCount req l + 1 := by
  simp only [Fit.nonfitCount, List.filter_cons]
  rw [if_pos (by simp [hx])]
  simp [Nat.add_comm]

theorem MMC.allocGo_eq_bounded (req : Nat) (l : List (Nat × Nat)) :
    ∀ best fitCnt nfitCnt, fitCnt < MMC.MAX_FIT →
      nfitCnt + Fit.nonfitCount req l ≤ MMC.MAX_NFIT →
      MMC.allocGo req l best fitCnt nfitCnt =
        Fit.bestOf best ((l.filter (Fit.fitsReq req)).take (MMC.MAX_FIT - fitCnt)) := by
  induction l with
  | nil => intro best fc nc _ _; simp [MMC.allocGo, Fit.bestOf]
  | cons x l ih =>
    intro best fc nc hfc hnc
    by_cases hx : Fit.fitsReq req x
    · by_cases h6 : fc + 1 = MMC.MAX_FIT
      · have h1 : MMC.MAX_FIT - fc = 1 := by simp [MMC.MAX_FIT] at h6 hfc ⊢; omega
        simp [MMC.allocGo, hx, h6, h1, List.filter_cons, Fit.bestOf]
      · have hlt : fc + 1 < MMC.MAX_FIT := by
          simp [MMC.MAX_FIT] at h6 hfc ⊢; omega
        have hsub : MMC.MAX_FIT - fc = (MMC.MAX_FIT - (fc + 1)) + 1 := by
          simp [MMC.MAX_FIT] at hfc ⊢; omega
        rw [show MMC.allocGo req (x :: l) best fc nc =
            MMC.allocGo req l (Fit.combine best x) (fc + 1) nc by
          simp [MMC.allocGo, hx, h6]]
        rw [ih (Fit.combine best x) (fc + 1) nc hlt
          (by rwa [Fit.nonfitCount_cons_fit req x l hx] at hnc)]
        rw [List.filter_cons_of_pos hx, hsub, List.take_succ_cons]
        simp [Fit.bestOf]
    · have hc : Fit.nonfitCount req (x :: l) = Fit.nonfitCount req l + 1 :=
        Fit.nonfitCount_cons_nonfit req x l hx
      have htr : ¬ (MMC.MAX_NFIT < nc + 1 ∧ fc ≠ 0) := by
        rw [hc] at hnc
        intro hand
        have : nc + 1 ≤ MMC.MAX_NFIT := by omega
        omega
      rw [show MMC.allocGo req (x :: l) best fc nc = MMC.allocGo req l best fc (nc + 1) by
        simp [MMC.allocGo, hx, htr]]
      rw [ih best fc (nc + 1) hfc (by rw [hc] at hnc; omega)]
      rw [List.filter_cons_of_neg hx]

theorem P1.segInner_out (req : Nat) (c : List (Nat × Nat)) :
    ∀ best fitCnt, fitCnt < 42 → fitCnt + (c.filter (Fit.fitsReq req)).length < 42 →
      P1.segInner req c best fitCnt =
        Sum.inr (Fit.bestOf best (c.filter (Fit.fitsReq req)),
          fitCnt + (c.filter (Fit.fitsReq req)).length) := by
  induction c with
  | nil => intro best fc _ _; simp [P1.segInner, Fit.bestOf]
  | cons x l ih =>
    intro best fc hfc hlen
    by_cases hx : Fit.fitsReq req x
    · rw [List.filter_cons_of_pos hx] at hlen ⊢
      have h42 : fc + 1 ≠ 42 := by simp at hlen; omega
      rw [show P1.segInner req (x :: l) best fc =
          P1.segInner req l (Fit.combine best x) (fc + 1) by
        simp [P1.segInner, hx, h42]]
      rw [ih (Fit.combine best x) (fc + 1) (by simp at hlen; omega) (by simp at hlen; omega)]
      simp [Fit.bestOf]
      omega
    · rw [List.filter_cons_of_neg hx] at hlen ⊢
      rw [show P1.segInner req (x :: l) best fc = P1.segInner req l best fc by
        simp [P1.segInner, hx]]
      exact ih best fc hfc hlen

theorem P1.segInner_early (req : Nat) (c : List (Nat × Nat)) :
    ∀ best fitCnt, fitCnt < 42 → 42 ≤ fitCnt + (c.filter (Fit.fitsReq req)).length →
      P1.segInner req c best fitCnt =
        Sum.inl (Fit.bestOf best ((c.filter (Fit.fitsReq req)).take (42 - fitCnt))) := by
  induction c with
  | nil => intro best fc hfc hlen; simp at hlen; omega
  | cons x l ih =>
    intro best fc hfc hlen
    by_cases hx : Fit.fitsReq req x
    · rw [List.filter_cons_of_pos hx] at hlen ⊢
      by_cases h42 : fc + 1 = 42
      · have h1 : 42 - fc = 1 := by omega
        simp [P1.segInner, hx, h42, h1, Fit.bestOf]
      · have hsub : 42 - fc = (42 - (fc + 1)) + 1 := by omega
        rw [show P1.segInner req (x :: l) best fc =
            P1.segInner req l (Fit.combine best x) (fc + 1) by
          simp [P1.segInner, hx, h42]]
        rw [ih (Fit.combine best x) (fc + 1) (by omega) (by simp at hlen ⊢; omega)]
        rw [hsub, List.take_succ_cons]
        simp [Fit.bestOf]
    · rw [List.filter_cons_of_neg hx] at hlen ⊢
      rw [show P1.segInner req (x :: l) best fc = P1.segInner req l best fc by
        simp [P1.segInner, hx]]
      exact ih best fc hfc hlen

theorem P1.segOuter_eq (req : Nat) :
    ∀ cs : List (List (Nat × Nat)), List.Pairwise P1.classLT cs →
      P1.segOuter req cs none 0 =
        Fit.bestOf none ((cs.flatten.filter (Fit.fitsReq req)).take 42) := by
  intro cs
  induction cs with
  | nil => intro _; simp [P1.segOuter, Fit.bestOf]
  | cons c rest ih =>
    intro hpw
    have hpw' := (List.pairwise_cons.mp hpw).2
    have hrel := (List.pairwise_cons.mp hpw).1
    rw [List.flatten_cons, List.filter_append]
    by_cases hbig : 42 ≤ (c.filter (Fit.fitsReq req)).length
    · rw [show P1.segOuter req (c :: rest) none 0 =
          Fit.bestOf none ((c.filter (Fit.fitsReq req)).take (42 - 0)) by
        simp only [P1.segOuter]
        rw [P1.segInner_early req c none 0 (by omega) (by omega)]]
      rw [List.take_append_eq_append_take]
      rw [show 42 - (c.filter (Fit.fitsReq req)).length = 0 by omega, List.take_zero,
        List.append_nil]
    · push_neg at hbig
      rw [show P1.segOuter req (c :: rest) none 0 =
          (if Fit.bestOf none (c.filter (Fit.fitsReq req)) ≠ none then
            Fit.bestOf none (c.filter (Fit.fitsReq req))
          else P1.segOuter req rest (Fit.bestOf none (c.filter (Fit.fitsReq req)))
            (0 + (c.filter (Fit.fitsReq req)).length)) by
        simp only [P1.segOuter]
        rw [P1.segInner_out req c none 0 (by omega) (by omega)]]
      by_cases hne : c.filter (Fit.fitsReq req) = []
      · rw [hne]
        simp only [Fit.bestOf, List.foldl_nil, List.length_nil, Nat.add_zero]
        rw [if_neg (by simp)]
        rw [ih hpw']
        simp [hne, Fit.bestOf]
      · have hbne : Fit.bestOf none (c.filter (Fit.fitsReq req)) ≠ none :=
          Fit.bestOf_ne_none none _ hne
        rw [if_pos hbne]
        cases hb : Fit.bestOf none (c.filter (Fit.fitsReq req)) with
        | none => exact absurd hb hbne
        | some bb =>
          have hmem : bb ∈ c.filter (Fit.fitsReq req) := by
            rcases Fit.bestOf_mem _ none bb hb with h1 | h1
            · exact absurd h1.symm (by simp)
            · exact h1
          have hmemc : bb ∈ c := (List.mem_filter.mp hmem).1
          rw [List.take_append_eq_append_take]
          rw [List.take_of_length_le (by omega)]
          rw [Fit.bestOf_append, hb]
          rw [Fit.bestOf_keeps bb _ ?_]
          intro y hy
          have hy' : y ∈ rest.flatten.filter (Fit.fitsReq req) := List.mem_of_mem_take hy
          have hy2 : y ∈ rest.flatten := (List.mem_filter.mp hy').1
          rcases List.mem_flatten.mp hy2 with ⟨d, hd, hyd⟩
          have := hrel d hd bb hmemc y hyd
          omega

theorem P1.getLevelAux_ge (s : Nat) (ts : List Nat) : ∀ i, i ≤ P1.getLevelAux s ts i := by
  induction ts with
  | nil => intro i; simp [P1.getLevelAux]
  | cons t ts ih =>
    intro i
    simp only [P1.getLevelAux]
    split
    · exact Nat.le_refl i
    · exact Nat.le_trans (Nat.le_succ i) (ih (i + 1))

theorem P1.getLevelAux_mono (a b : Nat) (hab : a ≤ b) (ts : List Nat) :
    ∀ i, P1.getLevelAux a ts i ≤ P1.getLevelAux b ts i := by
  induction ts with
  | nil => intro i; simp [P1.getLevelAux]
  | cons t ts ih =>
    intro i
    simp only [P1.getLevelAux]
    by_cases hb : b ≤ t
    · rw [if_pos hb, if_pos (Nat.le_trans hab hb)]
    · rw [if_neg hb]
      by_cases ha : a ≤ t
      · rw [if_pos ha]
        exact Nat.le_trans (Nat.le_succ i) (P1.getLevelAux_ge b ts (i + 1))
      · rw [if_neg ha]
        exact ih (i + 1)

theorem P1.getLevel_mono (a b : Nat) (hab : a ≤ b) : P1.getLevel a ≤ P1.getLevel b :=
  P1.getLevelAux_mono a b hab P1.threshold 0

theorem P1.wf_pairwise (fb : List (List (Nat × Nat))) (h : P1.WF fb) :
    List.Pairwise P1.classLT fb := by
  rw [List.pairwise_iff_get]
  intro i j hij
  intro x hx y hy
  have hxl : P1.getLevel x.2 = (i : Nat) := by
    have : fb.getD i [] = fb.get i := by
      rw [List.getD_eq_getElem?_getD, List.getElem?_eq_getElem i.isLt]
      simp
    exact h i x (by rwa [this])
  have hyl : P1.getLevel y.2 = (j : Nat) := by
    have : fb.getD j [] = fb.get j := by
      rw [List.getD_eq_getElem?_getD, List.getElem?_eq_getElem j.isLt]
      simp
    exact h j y (by rwa [this])
  by_contra hxy
  push_neg at hxy
  have := P1.getLevel_mono y.2 x.2 hxy
  rw [hxl, hyl] at this
  exact absurd (Nat.lt_of_lt_of_le hij this) (lt_irrefl _)

theorem P1.allocate_eq_of_wf (req : Nat) (fb : List (List (Nat × Nat))) (h : P1.WF fb) :
    P1.allocate req fb = Fit.boundedBestFit 42 req (P1.traversal req fb) := by
  have hpw : List.Pairwise P1.classLT (fb.drop (P1.getLevel req)) :=
    List.Pairwise.sublist (List.drop_sublist (P1.getLevel req) fb) (P1.wf_pairwise fb h)
  unfold P1.allocate P1.traversal Fit.boundedBestFit
  exact P1.segOuter_eq req _ hpw

theorem W.roundWords_mod8 (words : Nat) : W.roundWords words % 8 = 0 := by
  unfold W.roundWords
  split <;> omega

theorem W.roundWords_ge (words : Nat) (h : 0 < words) : 8 ≤ W.roundWords words := by
  unfold W.roundWords
  split <;> omega

theorem W.roundWords_lt (words : Nat) (h : words < 2 ^ 29) : W.roundWords words ≤ 2 ^ 31 := by
  unfold W.roundWords
  split <;> omega

theorem W.GET_PREALLOC_cases (m : W.Mem) (p : Nat) :
    W.GET_PREALLOC m p = 0 ∨ W.GET_PREALLOC m p = 2 := by
  unfold W.GET_PREALLOC W.READ
  omega

theorem W.extendWrites_spec (hp : Nat) (m : W.Mem) (fb heapEnd words : Nat)
    (hw : 0 < words) (hws : words < 2 ^ 29) :
    W.extendWrites hp (m, fb) heapEnd words true =
      some ((W.WRITE (W.WRITE (W.WRITE m heapEnd
          (W.PACK (W.roundWords words) (W.GET_PREALLOC m heapEnd)))
          (heapEnd + W.roundWords words - 4) (W.PACK (W.roundWords words) 0))
          (heapEnd + W.roundWords words) (W.PACK 0 1), fb),
        heapEnd + W.roundWords words, heapEnd + 4) := by
  have h8 := W.roundWords_mod8 words
  have hge := W.roundWords_ge words hw
  have hlt := W.roundWords_lt words hws
  have hpa := W.GET_PREALLOC_cases m heapEnd
  have hmod : W.roundWords words % 2 ^ 64 = W.roundWords words := by omega
  unfold W.extendWrites
  rw [if_pos rfl]
  simp only [hmod]
  have hhd : W.GET_HEADER (heapEnd + 4) = heapEnd := by unfold W.GET_HEADER; omega
  rw [hhd]
  have hv1 : W.PACK (W.roundWords words) (W.GET_PREALLOC m heapEnd) % 2 ^ 32 =
      W.roundWords words + W.GET_PREALLOC m heapEnd := by
    unfold W.PACK; omega
  have hsz1 : W.GET_SIZE (W.WRITE m heapEnd
      (W.PACK (W.roundWords words) (W.GET_PREALLOC m heapEnd))) heapEnd =
      W.roundWords words := by
    unfold W.GET_SIZE W.READ W.WRITE
    rw [if_pos rfl]
    unfold W.PACK
    omega
  have hft : W.GET_FOOTER (W.WRITE m heapEnd
      (W.PACK (W.roundWords words) (W.GET_PREALLOC m heapEnd))) (heapEnd + 4) =
      heapEnd + W.roundWords words - 4 := by
    unfold W.GET_FOOTER
    rw [hhd, hsz1]
    omega
  rw [hft]
  have hsz2 : W.GET_SIZE (W.WRITE (W.WRITE m heapEnd
      (W.PACK (W.roundWords words) (W.GET_PREALLOC m heapEnd)))
      (heapEnd + W.roundWords words - 4) (W.PACK (W.roundWords words) 0)) heapEnd =
      W.roundWords words := by
    unfold W.GET_SIZE W.READ W.WRITE
    rw [if_neg (by omega), if_pos rfl]
    unfold W.PACK
    omega
  have hsb : W.SUCC_BLK (W.WRITE (W.WRITE m heapEnd
      (W.PACK (W.roundWords words) (W.GET_PREALLOC m heapEnd)))
      (heapEnd + W.roundWords words - 4) (W.PACK (W.roundWords words) 0)) (heapEnd + 4) =
      heapEnd + 4 + W.roundWords words := by
    unfold W.SUCC_BLK
    rw [hhd, hsz2]
  rw [hsb]
  have hhd2 : W.GET_HEADER (heapEnd + 4 + W.roundWords words) = heapEnd + W.roundWords words := by
    unfold W.GET_HEADER; omega
  rw [hhd2]

theorem W.extendHeap_hand (hp : Nat) (st : W.Mem × Nat) (heapEnd words : Nat) (ok : Bool)
    (st1 : W.Mem × Nat) (he p : Nat)
    (h : W.extendWrites hp st heapEnd words ok = some (st1, he, p)) :
    W.extendHeap hp st heapEnd words ok =
      some ((W.mergeFreeBlocks hp st1 p).1, he, (W.mergeFreeBlocks hp st1 p).2) := by
  unfold W.extendHeap
  rw [h]

theorem W.merge_case1 (hp : Nat) (mm : W.Mem) (p : Nat) (hp0 : p ≠ 0)
    (hpre : W.GET_PREALLOC mm (W.GET_HEADER p) ≠ 0)
    (hsucc : W.GET_ALLOC mm (W.SUCC_HEADER mm p) ≠ 0) :
    W.mergeFreeBlocks hp (mm, 0) p =
      ((W.WRITE (W.WRITE (W.RESET_PREALLOC mm (W.GET_HEADER (W.SUCC_BLK mm p))) p 0)
        (p + 4) 0, p), p) := by
  unfold W.mergeFreeBlocks
  rw [if_pos ⟨hpre, hsucc⟩]
  unfold W.insertFreeBlock
  simp [hp0, W.SET_PRED_FREE, W.SET_SUCC_FREE]

theorem W.WRITE_ne (m : W.Mem) (p v q : Nat) (h : q ≠ p) : W.WRITE m p v q = m q := by
  unfold W.WRITE
  rw [if_neg h]

theorem W.WRITE_eq (m : W.Mem) (p v : Nat) : W.WRITE m p v p = v % 2 ^ 32 := by
  unfold W.WRITE
  rw [if_pos rfl]

theorem W.delete_single (hp : Nat) (m : W.Mem) (ptr : Nat) (hptr : ptr ≠ 0)
    (hlink : W.READ m (ptr + 4) = 0) :
    W.deleteFreeBlock hp (m, ptr) ptr = (m, 0) := by
  unfold W.deleteFreeBlock W.SUCC_FREE
  rw [if_neg hptr]
  simp [hlink]

theorem W.build_split_shape (hp : Nat) (m : W.Mem) (ptr size blksize : Nat)
    (hptr : 8 ≤ ptr) (hs8 : size % 8 = 0) (hb8 : blksize % 8 = 0)
    (hs16 : 16 ≤ size) (hsplit : size + 16 < blksize) (hb32 : blksize < 2 ^ 32)
    (hsz : W.GET_SIZE m (ptr - 4) = blksize)
    (hlink : W.READ m (ptr + 4) = 0) :
    W.build hp (m, ptr) ptr size =
      (W.mergeFreeBlocks hp
        (W.WRITE (W.WRITE (W.WRITE (W.WRITE m (ptr - 4)
            (W.PACK size (W.GET_PREALLOC m (ptr - 4) ||| 1)))
          (ptr + size - 8) (W.PACK size 1))
          (ptr + size - 4) (W.PACK (blksize - size) 2))
          (ptr + blksize - 8) (W.PACK (blksize - size) 0), 0)
        (ptr + size)).1 := by
  have hptr0 : ptr ≠ 0 := by omega
  have hdel := W.delete_single hp m ptr hptr0 hlink
  have hpa := W.GET_PREALLOC_cases m (ptr - 4)
  have hslt : size < 2 ^ 32 := by omega
  have hwrap : (blksize + 2 ^ 64 - size) % 2 ^ 64 = blksize - size := by omega
  have hor : W.GET_PREALLOC m (ptr - 4) ||| 1 ≤ 3 := by
    rcases hpa with h | h <;> rw [h] <;> decide
  have hft1 : W.GET_FOOTER (W.WRITE m (ptr - 4)
      (W.PACK size (W.GET_PREALLOC m (ptr - 4) ||| 1))) ptr = ptr + size - 8 := by
    unfold W.GET_FOOTER W.GET_HEADER W.GET_SIZE W.READ
    rw [W.WRITE_eq]
    unfold W.PACK
    omega
  have hsb1 : W.SUCC_BLK (W.WRITE (W.WRITE m (ptr - 4)
      (W.PACK size (W.GET_PREALLOC m (ptr - 4) ||| 1))) (ptr + size - 8) (W.PACK size 1))
      ptr = ptr + size := by
    unfold W.SUCC_BLK W.GET_HEADER W.GET_SIZE W.READ W.WRITE
    rw [if_neg (by omega : ¬ ptr - 4 = ptr + size - 8), if_pos rfl]
    unfold W.PACK
    omega
  have hft2 : W.GET_FOOTER (W.WRITE (W.WRITE (W.WRITE m (ptr - 4)
      (W.PACK size (W.GET_PREALLOC m (ptr - 4) ||| 1))) (ptr + size - 8) (W.PACK size 1))
      (ptr + size - 4) (W.PACK (blksize - size) 2)) (ptr + size) = ptr + blksize - 8 := by
    unfold W.GET_FOOTER W.GET_HEADER W.GET_SIZE W.READ
    rw [W.WRITE_eq]
    unfold W.PACK
    omega
  unfold W.build
  rw [if_neg hptr0, hdel]
  simp only [W.GET_HEADER, hsz]
  rw [hwrap, if_pos (by omega : (16 : Nat) < blksize - size)]
  rw [hft1, hsb1, hft2]

theorem W.build_split_footer (hp : Nat) (m : W.Mem) (ptr size blksize : Nat)
    (hptr : 8 ≤ ptr) (hs8 : size % 8 = 0) (hb8 : blksize % 8 = 0)
    (hs16 : 16 ≤ size) (hsplit : size + 16 < blksize) (hb32 : blksize < 2 ^ 32)
    (hsz : W.GET_SIZE m (ptr - 4) = blksize)
    (hlink : W.READ m (ptr + 4) = 0)
    (hsucc : W.READ m (ptr + blksize - 4) % 2 = 1) :
    (W.build hp (m, ptr) ptr size).1 (ptr + size - 8) = W.PACK size 1 := by
  rw [W.build_split_shape hp m ptr size blksize hptr hs8 hb8 hs16 hsplit hb32 hsz hlink]
  set M4 := W.WRITE (W.WRITE (W.WRITE (W.WRITE m (ptr - 4)
      (W.PACK size (W.GET_PREALLOC m (ptr - 4) ||| 1)))
    (ptr + size - 8) (W.PACK size 1))
    (ptr + size - 4) (W.PACK (blksize - size) 2))
    (ptr + blksize - 8) (W.PACK (blksize - size) 0) with hM4
  have hvhdr : M4 (ptr + size - 4) = blksize - size + 2 := by
    rw [hM4, W.WRITE_ne _ _ _ _ (by omega), W.WRITE_eq]
    unfold W.PACK
    omega
  have hpre : W.GET_PREALLOC M4 (W.GET_HEADER (ptr + size)) ≠ 0 := by
    unfold W.GET_PREALLOC W.GET_HEADER W.READ
    rw [show ptr + size - 4 = ptr + size - 4 from rfl]
    rw [hvhdr]
    omega
  have hsz4 : W.GET_SIZE M4 (ptr + size - 4) = blksize - size := by
    unfold W.GET_SIZE W.READ
    rw [hvhdr]
    omega
  have hsh : W.SUCC_HEADER M4 (ptr + size) = ptr + blksize - 4 := by
    unfold W.SUCC_HEADER W.GET_HEADER
    rw [hsz4]
    omega
  have hveps : M4 (ptr + blksize - 4) = m (ptr + blksize - 4) := by
    rw [hM4, W.WRITE_ne _ _ _ _ (by omega), W.WRITE_ne _ _ _ _ (by omega),
      W.WRITE_ne _ _ _ _ (by omega), W.WRITE_ne _ _ _ _ (by omega)]
  have hsuccM : W.GET_ALLOC M4 (W.SUCC_HEADER M4 (ptr + size)) ≠ 0 := by
    rw [hsh]
    unfold W.GET_ALLOC W.READ
    rw [hveps]
    unfold W.READ at hsucc
    omega
  have hsb : W.SUCC_BLK M4 (ptr + size) = ptr + blksize := by
    unfold W.SUCC_BLK W.GET_HEADER
    rw [hsz4]
    omega
  have hm := W.merge_case1 hp M4 (ptr + size) (by omega) hpre hsuccM
  have hmem : ((W.mergeFreeBlocks hp (M4, 0) (ptr + size)).1).1 =
      W.WRITE (W.WRITE (W.RESET_PREALLOC M4 (W.GET_HEADER (W.SUCC_BLK M4 (ptr + size))))
        (ptr + size) 0) (ptr + size + 4) 0 := by
    rw [hm]
  rw [hmem, hsb]
  unfold W.GET_HEADER
  rw [W.WRITE_ne _ _ _ _ (by omega), W.WRITE_ne _ _ _ _ (by omega)]
  unfold W.RESET_PREALLOC
  rw [W.WRITE_ne _ _ _ _ (by omega)]
  rw [hM4]
  rw [W.WRITE_ne _ _ _ _ (by omega), W.WRITE_ne _ _ _ _ (by omega), W.WRITE_eq]
  unfold W.PACK
  omega

namespace S

theorem getD_append_len (pre : List Block) (b : Block) (post : List Block) (d : Block) :
    (pre ++ b :: post).getD pre.length d = b := by
  induction pre with
  | nil => rfl
  | cons x xs ih => simpa using ih

theorem getD_append_left (pre rest : List Block) (d : Block) :
    ∀ i, i < pre.length → (pre ++ rest).getD i d = pre.getD i d := by
  induction pre with
  | nil => intro i h; simp at h
  | cons x xs ih =>
    intro i h
    cases i with
    | zero => rfl
    | succ j => simpa using ih j (by simpa using h)

theorem getD_append_len1 (pre : List Block) (b c : Block) (rest : List Block) (d : Block) :
    (pre ++ b :: c :: rest).getD (pre.length + 1) d = c := by
  induction pre with
  | nil => rfl
  | cons x xs ih => simpa using ih

theorem set_append_len (pre : List Block) (b : Block) (post : List Block) (b' : Block) :
    (pre ++ b :: post).set pre.length b' = pre ++ b' :: post := by
  induction pre with
  | nil => rfl
  | cons x xs ih => simpa using ih

theorem set_append_len1 (pre : List Block) (b c : Block) (rest : List Block) (c' : Block) :
    (pre ++ b :: c :: rest).set (pre.length + 1) c' = pre ++ b :: c' :: rest := by
  induction pre with
  | nil => rfl
  | cons x xs ih => simpa using ih

theorem drop_append_len1 (pre : List Block) (b : Block) (post : List Block) :
    (pre ++ b :: post).drop (pre.length + 1) = post := by
  have := @List.drop_append _ pre (b :: post) 1
  simpa using this

theorem drop_append_len2 (pre : List Block) (b c : Block) (rest : List Block) :
    (pre ++ b :: c :: rest).drop (pre.length + 2) = rest := by
  have := @List.drop_append _ pre (b :: c :: rest) 2
  simpa using this

theorem sumSizes_nil : sumSizes [] = 0 := rfl

theorem sumSizes_cons (b : Block) (l : List Block) :
    sumSizes (b :: l) = b.size + sumSizes l := by
  simp [sumSizes]

theorem sumSizes_append (l₁ l₂ : List Block) :
    sumSizes (l₁ ++ l₂) = sumSizes l₁ + sumSizes l₂ := by
  simp [sumSizes]

theorem payloadAddr_append_len (lo : Nat) (pre rest : List Block) :
    payloadAddr lo (pre ++ rest) pre.length = lo + 24 + sumSizes pre := by
  unfold payloadAddr
  rw [List.take_left]

theorem payloadAddr_append_left (lo : Nat) (pre rest₁ rest₂ : List Block) (i : Nat)
    (h : i ≤ pre.length) :
    payloadAddr lo (pre ++ rest₁) i = payloadAddr lo (pre ++ rest₂) i := by
  unfold payloadAddr
  rw [List.take_append_eq_append_take, List.take_append_eq_append_take]
  rw [show i - pre.length = 0 by omega]
  simp

theorem payloadAddr_concat (lo : Nat) (u v : List Block) (t : Nat) :
    payloadAddr lo (u ++ v) (u.length + t) = lo + 24 + sumSizes u + sumSizes (v.take t) := by
  unfold payloadAddr
  rw [List.take_append, sumSizes_append]
  omega

theorem chainOK_cons (p : Bool) (b : Block) (l : List Block) :
    chainOK p (b :: l) =
      ((b.prealloc == p) && (p || b.alloc) && decide (b.size % 8 = 0) &&
        decide (16 ≤ b.size) && chainOK b.alloc l) := rfl

theorem allocEnd_cons (p : Bool) (b : Block) (l : List Block) :
    allocEnd p (b :: l) = allocEnd b.alloc l := rfl

theorem allocEnd_nil (p : Bool) : allocEnd p [] = p := rfl

theorem allocEnd_append (p : Bool) (l₁ l₂ : List Block) :
    allocEnd p (l₁ ++ l₂) = allocEnd (allocEnd p l₁) l₂ := by
  unfold allocEnd
  rw [List.foldl_append]

theorem chainOK_append (p : Bool) (l₁ l₂ : List Block) :
    chainOK p (l₁ ++ l₂) = (chainOK p l₁ && chainOK (allocEnd p l₁) l₂) := by
  induction l₁ generalizing p with
  | nil => simp [chainOK, allocEnd]
  | cons b l ih =>
    simp only [List.cons_append, chainOK_cons, allocEnd_cons, ih b.alloc]
    cases h1 : (b.prealloc == p) <;> cases h2 : (p || b.alloc) <;>
      cases h3 : decide (b.size % 8 = 0) <;> cases h4 : decide (16 ≤ b.size) <;> simp

theorem chainOK_sizes (p : Bool) (l : List Block) (h : chainOK p l = true) :
    ∀ b ∈ l, b.size % 8 = 0 ∧ 16 ≤ b.size := by
  induction l generalizing p with
  | nil => intro b hb; simp at hb
  | cons x xs ih =>
    intro b hb
    rw [chainOK_cons] at h
    simp only [Bool.and_eq_true, decide_eq_true_eq] at h
    rcases List.mem_cons.mp hb with rfl | hb
    · exact ⟨h.1.1.2, h.1.2⟩
    · exact ih x.alloc h.2 b hb

theorem chainOK_sizes_pos (p : Bool) (l : List Block) (h : chainOK p l = true) :
    ∀ b ∈ l, 0 < b.size := by
  intro b hb
  have := chainOK_sizes p l h b hb
  omega

end S

namespace S

theorem payloadAddr_succ (lo : Nat) (bs : List Block) (i : Nat) (h : i < bs.length) :
    payloadAddr lo bs (i + 1) = payloadAddr lo bs i + (bs.getD i dummy).size := by
  unfold payloadAddr
  rw [List.take_succ]
  rw [List.getElem?_eq_getElem h]
  rw [sumSizes_append]
  simp only [List.getD_eq_getElem?_getD, List.getElem?_eq_getElem h, Option.getD_some,
    Option.toList_some, sumSizes, List.map_cons, List.map_nil, List.sum_cons, List.sum_nil]
  omega

theorem payloadAddr_strict (lo : Nat) (bs : List Block) (hpos : ∀ b ∈ bs, 0 < b.size) :
    ∀ i j, i < j → j ≤ bs.length → payloadAddr lo bs i < payloadAddr lo bs j := by
  intro i j hij hj
  induction j with
  | zero => omega
  | succ k ih =>
    have hk : k < bs.length := by omega
    rw [payloadAddr_succ lo bs k hk]
    have hpos' : 0 < (bs.getD k dummy).size := by
      apply hpos
      rw [List.getD_eq_getElem?_getD, List.getElem?_eq_getElem hk]
      simp only [Option.getD_some]
      exact List.getElem_mem hk
    rcases Nat.lt_or_ge i k with h1 | h1
    · have := ih h1 (by omega)
      omega
    · have : i = k := by omega
      subst this
      omega

theorem payloadAddr_mono (lo : Nat) (bs : List Block) :
    ∀ i j, i ≤ j → payloadAddr lo bs i ≤ payloadAddr lo bs j := by
  intro i j hij
  unfold payloadAddr
  have : sumSizes (bs.take i) ≤ sumSizes (bs.take j) := by
    rw [show j = i + (j - i) by omega]
    rw [← List.take_append_drop i (bs.take (i + (j - i)))]
    rw [List.take_take]
    rw [Nat.min_def, if_pos (by omega)]
    rw [sumSizes_append]
    omega
  omega

theorem idxFrom_some (a : Nat) (bs : List Block) :
    ∀ cur i0 j, idxFrom a bs cur i0 = some j →
      ∃ k, j = i0 + k ∧ k < bs.length ∧ a = cur + sumSizes (bs.take k) := by
  induction bs with
  | nil => intro cur i0 j h; simp [idxFrom] at h
  | cons b tl ih =>
    intro cur i0 j h
    unfold idxFrom at h
    by_cases hc : cur = a
    · rw [if_pos hc] at h
      exact ⟨0, by simpa using h.symm, by simp, by simp [hc, sumSizes]⟩
    · rw [if_neg hc] at h
      rcases ih (cur + b.size) (i0 + 1) j h with ⟨k, hk1, hk2, hk3⟩
      refine ⟨k + 1, by omega, by simp; omega, ?_⟩
      rw [List.take_succ_cons, sumSizes_cons]
      omega

theorem idxFrom_finds (bs : List Block) (hpos : ∀ b ∈ bs, 0 < b.size) :
    ∀ cur i0 k, k < bs.length →
      idxFrom (cur + sumSizes (bs.take k)) bs cur i0 = some (i0 + k) := by
  induction bs with
  | nil => intro cur i0 k h; simp at h
  | cons b tl ih =>
    intro cur i0 k h
    cases k with
    | zero =>
      unfold idxFrom
      rw [if_pos (by simp [sumSizes])]
      simp
    | succ k' =>
      unfold idxFrom
      rw [List.take_succ_cons, sumSizes_cons]
      have hb : 0 < b.size := hpos b (by simp)
      rw [if_neg (by omega)]
      have := ih (fun x hx => hpos x (by simp [hx])) (cur + b.size) (i0 + 1) k'
        (by simpa using h)
      rw [show cur + (b.size + sumSizes (tl.take k')) =
        cur + b.size + sumSizes (tl.take k') by omega]
      rw [this]
      congr 1
      omega

theorem idxOfAddr_mem (s : Heap) (a : Nat) (j : Nat) (h : idxOfAddr s a = some j) :
    j < s.blocks.length ∧ a = payloadAddr s.lo s.blocks j := by
  rcases idxFrom_some a s.blocks (s.lo + 24) 0 j h with ⟨k, hk1, hk2, hk3⟩
  subst hk1
  simp only [Nat.zero_add]
  exact ⟨hk2, by unfold payloadAddr; omega⟩

theorem idxOfAddr_payload (s : Heap) (hpos : ∀ b ∈ s.blocks, 0 < b.size) (i : Nat)
    (h : i < s.blocks.length) :
    idxOfAddr s (payloadAddr s.lo s.blocks i) = some i := by
  unfold idxOfAddr
  have := idxFrom_finds s.blocks hpos (s.lo + 24) 0 i h
  rw [show payloadAddr s.lo s.blocks i = s.lo + 24 + sumSizes (s.blocks.take i) from rfl]
  rw [show s.lo + 24 + sumSizes (s.blocks.take i) =
    s.lo + 24 + sumSizes (s.blocks.take i) from rfl]
  simpa using this

end S

namespace S

theorem getD_out (l : List Block) (d : Block) : ∀ i, l.length ≤ i → l.getD i d = d := by
  induction l with
  | nil => intro i _; simp
  | cons x xs ih =>
    intro i h
    cases i with
    | zero => simp at h
    | succ j => simpa using ih j (by simpa using h)

theorem payloadAddr_append_len1 (lo : Nat) (pre : List Block) (b : Block) (post : List Block) :
    payloadAddr lo (pre ++ b :: post) (pre.length + 1) = lo + 24 + sumSizes pre + b.size := by
  have := payloadAddr_concat lo pre (b :: post) 1
  simpa [sumSizes] using this

theorem payloadAddr_append_len2 (lo : Nat) (pre : List Block) (b c : Block) (post : List Block) :
    payloadAddr lo (pre ++ b :: c :: post) (pre.length + 2) =
      lo + 24 + sumSizes pre + b.size + c.size := by
  have := payloadAddr_concat lo pre (b :: c :: post) 2
  simp only [List.take_succ_cons, List.take_zero, sumSizes_cons, sumSizes_nil] at this
  omega

theorem allocAt_append_len1_nil (pre : List Block) (b : Block) :
    allocAt (pre ++ [b]) (pre.length + 1) = true := by
  unfold allocAt
  rw [getD_out _ _ _ (by simp)]
  rfl

theorem allocAt_append_len1_cons (pre : List Block) (b c : Block) (rest : List Block) :
    allocAt (pre ++ b :: c :: rest) (pre.length + 1) = c.alloc := by
  unfold allocAt
  rw [getD_append_len1]

end S

namespace S

theorem getD_append_len2 (pre : List Block) (a b c : Block) (rest : List Block) (d : Block) :
    (pre ++ a :: b :: c :: rest).getD (pre.length + 2) d = c := by
  induction pre with
  | nil => rfl
  | cons x xs ih => simpa using ih

theorem drop_append_len3' (pre : List Block) (a b c : Block) (rest : List Block) :
    (pre ++ a :: b :: c :: rest).drop (pre.length + 3) = rest := by
  have := @List.drop_append _ pre (a :: b :: c :: rest) 3
  simpa using this

theorem merge_case_both_nil (lo : Nat) (pre : List Block) (b : Block) (fl : List Nat) (ep : Bool)
    (hb : b.prealloc = true) :
    merge ⟨lo, pre ++ [b], fl, ep⟩ pre.length =
      (⟨lo, pre ++ [b], (lo + 24 + sumSizes pre) :: fl, false⟩, pre.length) := by
  unfold merge
  simp only [getD_append_len, allocAt_append_len1_nil, hb]
  rw [if_pos ⟨trivial, trivial⟩]
  unfold setPre insertAddr
  simp only [List.length_append, List.length_cons, List.length_nil]
  rw [if_neg (by omega)]
  rw [payloadAddr_append_len]

theorem merge_case_both_cons (lo : Nat) (pre : List Block) (b c : Block) (rest : List Block)
    (fl : List Nat) (ep : Bool) (hb : b.prealloc = true) (hc : c.alloc = true) :
    merge ⟨lo, pre ++ b :: c :: rest, fl, ep⟩ pre.length =
      (⟨lo, pre ++ b :: ⟨c.size, c.alloc, false⟩ :: rest,
        (lo + 24 + sumSizes pre) :: fl, ep⟩, pre.length) := by
  unfold merge
  simp only [getD_append_len, allocAt_append_len1_cons, hb, hc]
  rw [if_pos ⟨trivial, trivial⟩]
  unfold setPre insertAddr
  simp only [List.length_append, List.length_cons]
  rw [if_pos (by omega)]
  rw [getD_append_len1, set_append_len1, payloadAddr_append_len]
  simp [hc]

theorem merge_case_succfree (lo : Nat) (pre : List Block) (b c : Block) (rest : List Block)
    (fl : List Nat) (ep : Bool) (hb : b.prealloc = true) (hc : c.alloc = false) :
    merge ⟨lo, pre ++ b :: c :: rest, fl, ep⟩ pre.length =
      (⟨lo, pre ++ ⟨b.size + c.size, false, true⟩ :: rest,
        (lo + 24 + sumSizes pre) :: fl.erase (lo + 24 + sumSizes pre + b.size), ep⟩,
        pre.length) := by
  unfold merge
  simp only [getD_append_len, allocAt_append_len1_cons, hb, hc]
  rw [if_neg (by simp)]
  rw [if_pos trivial]
  rw [getD_append_len1, List.take_left, drop_append_len2, payloadAddr_append_len,
    payloadAddr_append_len1]

theorem merge_case_predfree_nil (lo : Nat) (pre' : List Block) (q b : Block)
    (fl : List Nat) (ep : Bool) (hb : b.prealloc = false) :
    merge ⟨lo, pre' ++ q :: b :: [], fl, ep⟩ (pre'.length + 1) =
      (⟨lo, pre' ++ [⟨q.size + b.size, false, q.prealloc⟩],
        (lo + 24 + sumSizes pre') :: fl.erase (lo + 24 + sumSizes pre'), false⟩,
        pre'.length) := by
  unfold merge
  have h1 : (pre' ++ q :: b :: []).getD (pre'.length + 1) dummy = b := getD_append_len1 _ _ _ _ _
  have h2 : allocAt (pre' ++ q :: b :: []) (pre'.length + 1 + 1) = true := by
    unfold allocAt
    rw [getD_out _ _ _ (by simp)]
    rfl
  simp only [h1, h2, hb]
  rw [if_neg (by simp)]
  rw [if_neg (by simp)]
  rw [if_pos trivial]
  rw [if_neg (by omega)]
  rw [show pre'.length + 1 - 1 = pre'.length by omega]
  rw [show pre' ++ q :: b :: [] = pre' ++ q :: (b :: []) from rfl]
  rw [getD_append_len, List.take_left, drop_append_len2, payloadAddr_append_len]
  unfold setPre insertAddr
  simp only [List.length_append, List.length_cons, List.length_nil]
  rw [if_neg (by omega)]

theorem merge_case_predfree_cons (lo : Nat) (pre' : List Block) (q b c : Block)
    (rest : List Block) (fl : List Nat) (ep : Bool)
    (hb : b.prealloc = false) (hc : c.alloc = true) :
    merge ⟨lo, pre' ++ q :: b :: c :: rest, fl, ep⟩ (pre'.length + 1) =
      (⟨lo, pre' ++ ⟨q.size + b.size, false, q.prealloc⟩ :: ⟨c.size, c.alloc, false⟩ :: rest,
        (lo + 24 + sumSizes pre') :: fl.erase (lo + 24 + sumSizes pre'), ep⟩,
        pre'.length) := by
  unfold merge
  have h1 : (pre' ++ q :: b :: c :: rest).getD (pre'.length + 1) dummy = b :=
    getD_append_len1 _ _ _ _ _
  have h2 : allocAt (pre' ++ q :: b :: c :: rest) (pre'.length + 1 + 1) = c.alloc := by
    unfold allocAt
    rw [show pre'.length + 1 + 1 = pre'.length + 2 by omega]
    rw [getD_append_len2]
  simp only [h1, h2, hb, hc]
  rw [if_neg (by simp)]
  rw [if_neg (by simp)]
  rw [if_pos trivial]
  rw [if_neg (by omega)]
  rw [show pre'.length + 1 - 1 = pre'.length by omega]
  rw [getD_append_len, List.take_left, drop_append_len2, payloadAddr_append_len]
  unfold setPre insertAddr
  simp only [List.length_append, List.length_cons]
  rw [if_pos (by omega)]
  rw [getD_append_len1, set_append_len1]
  simp [hc]

theorem merge_case_bothfree (lo : Nat) (pre' : List Block) (q b c : Block)
    (rest : List Block) (fl : List Nat) (ep : Bool)
    (hb : b.prealloc = false) (hc : c.alloc = false) :
    merge ⟨lo, pre' ++ q :: b :: c :: rest, fl, ep⟩ (pre'.length + 1) =
      (⟨lo, pre' ++ ⟨q.size + b.size + c.size, false, q.prealloc⟩ :: rest,
        (lo + 24 + sumSizes pre') ::
          ((fl.erase (lo + 24 + sumSizes pre')).erase
            (lo + 24 + sumSizes pre' + q.size + b.size)), ep⟩,
        pre'.length) := by
  unfold merge
  have h1 : (pre' ++ q :: b :: c :: rest).getD (pre'.length + 1) dummy = b :=
    getD_append_len1 _ _ _ _ _
  have h2 : allocAt (pre' ++ q :: b :: c :: rest) (pre'.length + 1 + 1) = c.alloc := by
    unfold allocAt
    rw [show pre'.length + 1 + 1 = pre'.length + 2 by omega]
    rw [getD_append_len2]
  simp only [h1, h2, hb, hc]
  rw [if_neg (by simp)]
  rw [if_neg (by simp)]
  rw [if_neg (by simp)]
  rw [if_neg (by omega)]
  rw [show pre'.length + 1 - 1 = pre'.length by omega]
  rw [show pre'.length + 1 + 2 = pre'.length + 3 by omega]
  rw [getD_append_len]
  have h3 : (pre' ++ q :: b :: c :: rest).getD (pre'.length + 1 + 1) dummy = c := by
    rw [show pre'.length + 1 + 1 = pre'.length + 2 by omega]
    exact getD_append_len2 _ _ _ _ _ _
  rw [h3, List.take_left, drop_append_len3', payloadAddr_append_len]
  have h4 : payloadAddr lo (pre' ++ q :: b :: c :: rest) (pre'.length + 1 + 1) =
      lo + 24 + sumSizes pre' + q.size + b.size := by
    rw [show pre'.length + 1 + 1 = pre'.length + 2 by omega]
    exact payloadAddr_append_len2 _ _ _ _ _
  rw [h4]

end S

namespace S

theorem blocks_decomp (bs : List Block) (i : Nat) (h : i < bs.length) :
    bs = bs.take i ++ bs.getD i dummy :: bs.drop (i + 1) ∧ (bs.take i).length = i := by
  constructor
  · conv_lhs => rw [← List.take_append_drop i bs]
    rw [List.drop_eq_getElem_cons h, List.getD_eq_getElem bs dummy h]
  · rw [List.length_take]
    omega

theorem entryOK_blocks (s t : Heap) (hlo : s.lo = t.lo) (hbs : s.blocks = t.blocks) (a : Nat) :
    entryOK s a = entryOK t a := by
  unfold entryOK idxOfAddr
  rw [hlo, hbs]

theorem entryOK_of_idx (s : Heap) (hpos : ∀ b ∈ s.blocks, 0 < b.size) (j : Nat)
    (hj : j < s.blocks.length) (hfree : (s.blocks.getD j dummy).alloc = false) :
    entryOK s (payloadAddr s.lo s.blocks j) = true := by
  unfold entryOK
  rw [idxOfAddr_payload s hpos j hj]
  rw [List.getD_eq_getElem?_getD] at hfree
  simp [hfree]

theorem entryOK_elim (s : Heap) (a : Nat) (h : entryOK s a = true) :
    ∃ j, j < s.blocks.length ∧ a = payloadAddr s.lo s.blocks j ∧
      (s.blocks.getD j dummy).alloc = false := by
  unfold entryOK at h
  cases hidx : idxOfAddr s a with
  | none => rw [hidx] at h; simp at h
  | some j =>
    rw [hidx] at h
    simp only [Bool.not_eq_true'] at h
    rcases idxOfAddr_mem s a j hidx with ⟨h1, h2⟩
    exact ⟨j, h1, h2, h⟩

theorem payloadAddr_take_eq (lo : Nat) (bs bs' : List Block) (j : Nat)
    (h : bs.take j = bs'.take j) : payloadAddr lo bs j = payloadAddr lo bs' j := by
  unfold payloadAddr
  rw [h]

theorem take_append_of_le (u rest : List Block) (j : Nat) (h : j ≤ u.length) :
    (u ++ rest).take j = u.take j := by
  rw [List.take_append_eq_append_take]
  rw [show j - u.length = 0 by omega]
  simp

theorem sumSizes_mod8 (bs : List Block) (h : ∀ b ∈ bs, b.size % 8 = 0) :
    sumSizes bs % 8 = 0 := by
  induction bs with
  | nil => simp [sumSizes]
  | cons b l ih =>
    rw [sumSizes_cons]
    have h1 := h b (by simp)
    have h2 := ih (fun x hx => h x (by simp [hx]))
    omega

theorem payloadAddr_mod8 (lo : Nat) (bs : List Block) (j : Nat)
    (h : ∀ b ∈ bs, b.size % 8 = 0) : payloadAddr lo bs j % 8 = lo % 8 := by
  unfold payloadAddr
  have : sumSizes (bs.take j) % 8 = 0 :=
    sumSizes_mod8 _ (fun b hb => h b (List.mem_of_mem_take hb))
  omega

end S

namespace S

theorem getD_append_right (w rest : List Block) (t : Nat) (d : Block) :
    (w ++ rest).getD (w.length + t) d = rest.getD t d := by
  induction w with
  | nil => simp
  | cons x xs ih => simpa [Nat.succ_add] using ih

theorem entry_transfer (lo : Nat) (u mid mid' rest : List Block)
    (bsOld bsNew : List Block) (fl' : List Nat) (ep' : Bool)
    (hOld : bsOld = u ++ mid ++ rest) (hNew : bsNew = u ++ mid' ++ rest)
    (hsum : sumSizes mid = sumSizes mid')
    (hpos : ∀ b ∈ bsNew, 0 < b.size)
    (a : Nat) (j : Nat) (hj : j < bsOld.length)
    (ha : a = payloadAddr lo bsOld j)
    (hfree : (bsOld.getD j dummy).alloc = false)
    (hcase : j < u.length ∨ u.length + mid.length ≤ j) :
    entryOK ⟨lo, bsNew, fl', ep'⟩ a = true := by
  subst hOld
  subst hNew
  rcases hcase with hc | hc
  · have haddr : payloadAddr lo (u ++ mid ++ rest) j = payloadAddr lo (u ++ mid' ++ rest) j := by
      apply payloadAddr_take_eq
      rw [List.append_assoc u mid rest, List.append_assoc u mid' rest]
      rw [take_append_of_le u (mid ++ rest) j (by omega),
        take_append_of_le u (mid' ++ rest) j (by omega)]
    have hblk : ((u ++ mid ++ rest).getD j dummy) = ((u ++ mid' ++ rest).getD j dummy) := by
      rw [List.append_assoc u mid rest, List.append_assoc u mid' rest]
      rw [getD_append_left u (mid ++ rest) dummy j hc,
        getD_append_left u (mid' ++ rest) dummy j hc]
    have := entryOK_of_idx ⟨lo, u ++ mid' ++ rest, fl', ep'⟩ hpos j
      (by simp; omega) (by rw [← hblk]; exact hfree)
    rw [ha, haddr]
    exact this
  · have hlen : j < u.length + mid.length + rest.length := by
      simp only [List.length_append] at hj
      omega
    have htr : j - (u.length + mid.length) < rest.length := by omega
    have hj' : j = (u ++ mid).length + (j - (u.length + mid.length)) := by simp; omega
    have haddr : a = lo + 24 + sumSizes (u ++ mid) +
        sumSizes (rest.take (j - (u.length + mid.length))) := by
      rw [ha]
      nth_rewrite 1 [hj']
      exact payloadAddr_concat lo (u ++ mid) rest _
    have hfree' : (rest.getD (j - (u.length + mid.length)) dummy).alloc = false := by
      rw [hj'] at hfree
      rwa [getD_append_right] at hfree
    have haddr2 : a = payloadAddr lo (u ++ mid' ++ rest)
        ((u ++ mid').length + (j - (u.length + mid.length))) := by
      rw [payloadAddr_concat lo (u ++ mid') rest _]
      rw [haddr, sumSizes_append, sumSizes_append, hsum]
    have hblk2 : ((u ++ mid' ++ rest).getD
        ((u ++ mid').length + (j - (u.length + mid.length))) dummy).alloc = false := by
      rw [getD_append_right]
      exact hfree'
    have := entryOK_of_idx ⟨lo, u ++ mid' ++ rest, fl', ep'⟩ hpos
      ((u ++ mid').length + (j - (u.length + mid.length)))
      (by simp; omega) hblk2
    rw [haddr2]
    exact this

end S

namespace S

theorem postOK_sizes (post : List Block) (h : postOK post = true) :
    ∀ c ∈ post, c.size % 8 = 0 ∧ 16 ≤ c.size := by
  cases post with
  | nil => intro c hc; simp at hc
  | cons c rest =>
    intro x hx
    unfold postOK at h
    simp only [Bool.and_eq_true, decide_eq_true_eq] at h
    rcases List.mem_cons.mp hx with rfl | hx
    · exact ⟨h.1.1, h.1.2⟩
    · exact chainOK_sizes c.alloc rest h.2 x hx

theorem postOK_of_chainOK (p : Bool) (post : List Block) (h : chainOK p post = true) :
    postOK post = true := by
  cases post with
  | nil => rfl
  | cons c rest =>
    rw [chainOK_cons] at h
    simp only [Bool.and_eq_true, decide_eq_true_eq] at h
    unfold postOK
    simp only [Bool.and_eq_true, decide_eq_true_eq]
    exact ⟨⟨h.1.1.2, h.1.2⟩, h.2⟩

theorem pre_decomp_of_allocEnd_false (pre : List Block) (h : chainOK true pre = true)
    (hend : allocEnd true pre = false) :
    ∃ pre'' q, pre = pre'' ++ [q] ∧ q.alloc = false ∧ q.prealloc = true ∧
      chainOK true pre'' = true ∧ allocEnd true pre'' = true ∧
      q.size % 8 = 0 ∧ 16 ≤ q.size := by
  rcases List.eq_nil_or_concat pre with rfl | ⟨L, q, rfl⟩
  · rw [allocEnd_nil] at hend
    exact absurd hend (by simp)
  · rw [List.concat_eq_append] at h hend ⊢
    rw [chainOK_append] at h
    simp only [Bool.and_eq_true] at h
    have hq := h.2
    rw [chainOK_cons] at hq
    simp only [Bool.and_eq_true, Bool.or_eq_true, decide_eq_true_eq, beq_iff_eq] at hq
    rw [allocEnd_append, allocEnd_cons, allocEnd_nil] at hend
    have hLtrue : allocEnd true L = true := by
      rcases hq.1.1.1.2 with h1 | h1
      · exact h1
      · exact absurd (by rw [hend] at h1; exact h1) (by simp)
    refine ⟨L, q, rfl, hend, ?_, h.1, hLtrue, hq.1.1.2, hq.1.2⟩
    rw [hq.1.1.1.1, hLtrue]

end S

namespace S

theorem hpos_of_parts (pre : List Block) (b : Block) (post : List Block)
    (hpre : chainOK true pre = true) (hb : 0 < b.size)
    (hpost : postOK post = true) :
    ∀ bk ∈ pre ++ b :: post, 0 < bk.size := by
  intro bk hbk
  rcases List.mem_append.mp hbk with h | h
  · exact chainOK_sizes_pos true pre hpre bk h
  · rcases List.mem_cons.mp h with rfl | h
    · exact hb
    · have := postOK_sizes post hpost bk h
      omega

theorem merge_inv (lo : Nat) (pre : List Block) (b : Block) (post : List Block)
    (fl : List Nat) (ep : Bool)
    (hpre : chainOK true pre = true)
    (hba : b.alloc = false) (hb8 : b.size % 8 = 0) (hb16 : 16 ≤ b.size)
    (hbp : b.prealloc = allocEnd true pre)
    (hpost : postOK post = true)
    (hep : post ≠ [] → ep = allocEnd true post)
    (hfl : ∀ a ∈ fl, entryOK ⟨lo, pre ++ b :: post, fl, ep⟩ a = true)
    (hnd : fl.Nodup)
    (hni : (lo + 24 + sumSizes pre) ∉ fl) :
    Inv (merge ⟨lo, pre ++ b :: post, fl, ep⟩ pre.length).1 ∧
      (merge ⟨lo, pre ++ b :: post, fl, ep⟩ pre.length).1.lo = lo ∧
      (∃ pre2 b2 post2,
        (merge ⟨lo, pre ++ b :: post, fl, ep⟩ pre.length).1.blocks = pre2 ++ b2 :: post2 ∧
        (merge ⟨lo, pre ++ b :: post, fl, ep⟩ pre.length).2 = pre2.length ∧
        b2.alloc = false ∧ b.size ≤ b2.size ∧
        pre2.length ≤ pre.length ∧ pre2 = pre.take pre2.length) ∧
      ((merge ⟨lo, pre ++ b :: post, fl, ep⟩ pre.length).2 = pre.length ∨
        ((merge ⟨lo, pre ++ b :: post, fl, ep⟩ pre.length).2 + 1 = pre.length ∧
          allocEnd true pre = false)) := by
  by_cases hpb : b.prealloc = true
  · have hendpre : allocEnd true pre = true := by rw [← hbp]; exact hpb
    cases post with
    | nil =>
      rw [merge_case_both_nil lo pre b fl ep hpb]
      have hpos : ∀ bk ∈ pre ++ b :: ([] : List Block), 0 < bk.size :=
        hpos_of_parts pre b [] hpre (by omega) hpost
      refine ⟨⟨?_, ?_, ?_, ?_⟩, rfl, ⟨pre, b, [], rfl, rfl, hba, Nat.le_refl _,
        Nat.le_refl _, (List.take_length pre).symm⟩, Or.inl rfl⟩
      · rw [chainOK_append]
        simp only [Bool.and_eq_true]
        refine ⟨hpre, ?_⟩
        rw [chainOK_cons]
        simp [hpb, hendpre, hb8, hb16, chainOK]
      · simp only
        rw [allocEnd_append, allocEnd_cons, allocEnd_nil, hba]
      · intro a ha
        rcases List.mem_cons.mp ha with rfl | ha
        · have := entryOK_of_idx ⟨lo, pre ++ [b], (lo + 24 + sumSizes pre) :: fl, false⟩
            hpos pre.length (by simp) (by rw [getD_append_len]; exact hba)
          rwa [payloadAddr_append_len] at this
        · have := hfl a ha
          rwa [entryOK_blocks ⟨lo, pre ++ [b], (lo + 24 + sumSizes pre) :: fl, false⟩
            ⟨lo, pre ++ b :: [], fl, ep⟩ rfl rfl]
      · simp only
        exact List.nodup_cons.mpr ⟨hni, hnd⟩
    | cons c rest =>
      have hcs := postOK_sizes (c :: rest) hpost c (by simp)
      have hcchain : chainOK c.alloc rest = true := by
        unfold postOK at hpost
        simp only [Bool.and_eq_true] at hpost
        exact hpost.2
      have hepc : ep = allocEnd c.alloc rest := by
        have := hep (by simp)
        rwa [allocEnd_cons] at this
      by_cases hca : c.alloc = true
      · rw [merge_case_both_cons lo pre b c rest fl ep hpb hca]
        have hpos : ∀ bk ∈ pre ++ b :: (⟨c.size, c.alloc, false⟩ : Block) :: rest,
            0 < bk.size := by
          intro bk hbk
          rcases List.mem_append.mp hbk with h | h
          · exact chainOK_sizes_pos true pre hpre bk h
          · rcases List.mem_cons.mp h with rfl | h
            · omega
            · rcases List.mem_cons.mp h with rfl | h
              · simp only
                omega
              · have := chainOK_sizes c.alloc rest hcchain bk h
                omega
        have hctrue : chainOK true rest = true := by rwa [hca] at hcchain
        refine ⟨⟨?_, ?_, ?_, ?_⟩, rfl, ⟨pre, b, ⟨c.size, c.alloc, false⟩ :: rest, rfl, rfl,
          hba, Nat.le_refl _, Nat.le_refl _, (List.take_length pre).symm⟩, Or.inl rfl⟩
        · rw [chainOK_append]
          simp only [Bool.and_eq_true]
          refine ⟨hpre, ?_⟩
          rw [chainOK_cons, chainOK_cons]
          simp [hpb, hendpre, hba, hca, hb8, hb16, hcs.1, hcs.2, hctrue]
        · simp only
          rw [hepc, allocEnd_append, allocEnd_cons, allocEnd_cons]
        · intro a ha
          rcases List.mem_cons.mp ha with rfl | ha
          · have := entryOK_of_idx ⟨lo, pre ++ b :: (⟨c.size, c.alloc, false⟩ : Block) :: rest,
              (lo + 24 + sumSizes pre) :: fl, ep⟩ hpos pre.length (by simp)
              (by rw [getD_append_len]; exact hba)
            rwa [payloadAddr_append_len] at this
          · have hold := hfl a ha
            rcases entryOK_elim _ a hold with ⟨j, hj, haj, hfree⟩
            have hj' : j < (pre ++ b :: c :: rest).length := hj
            have hfree' : ((pre ++ b :: c :: rest).getD j dummy).alloc = false := hfree
            have haj' : a = payloadAddr lo (pre ++ b :: c :: rest) j := haj
            have hjne : j ≠ pre.length + 1 := by
              intro h
              rw [h, getD_append_len1, hca] at hfree'
              simp at hfree'
            apply entry_transfer lo (pre ++ [b]) [c] [⟨c.size, c.alloc, false⟩] rest
              (pre ++ b :: c :: rest) (pre ++ b :: (⟨c.size, c.alloc, false⟩ : Block) :: rest)
              ((lo + 24 + sumSizes pre) :: fl) ep (by simp) (by simp) (by simp [sumSizes])
              hpos a j hj' haj' hfree'
            simp only [List.length_append, List.length_cons, List.length_nil] at hj' ⊢
            omega
        · simp only
          exact List.nodup_cons.mpr ⟨hni, hnd⟩
      · have hcf : c.alloc = false := by simpa using hca
        rw [merge_case_succfree lo pre b c rest fl ep hpb hcf]
        have hrest : chainOK false rest = true := by rwa [hcf] at hcchain
        have hpos : ∀ bk ∈ pre ++ (⟨b.size + c.size, false, true⟩ : Block) :: rest,
            0 < bk.size := by
          intro bk hbk
          rcases List.mem_append.mp hbk with h | h
          · exact chainOK_sizes_pos true pre hpre bk h
          · rcases List.mem_cons.mp h with rfl | h
            · simp only
              omega
            · have := chainOK_sizes c.alloc rest hcchain bk h
              omega
        refine ⟨⟨?_, ?_, ?_, ?_⟩, rfl, ⟨pre, ⟨b.size + c.size, false, true⟩, rest, rfl, rfl,
          rfl, by simp only; omega, Nat.le_refl _, (List.take_length pre).symm⟩, Or.inl rfl⟩
        · rw [chainOK_append]
          simp only [Bool.and_eq_true]
          refine ⟨hpre, ?_⟩
          rw [chainOK_cons]
          have hc8 := hcs.1
          have hc16 := hcs.2
          simp [hendpre, hrest]
          omega
        · simp only
          rw [hepc, allocEnd_append, allocEnd_cons]
          rw [hcf]
        · intro a ha
          rcases List.mem_cons.mp ha with rfl | ha
          · have := entryOK_of_idx ⟨lo, pre ++ (⟨b.size + c.size, false, true⟩ : Block) :: rest,
              (lo + 24 + sumSizes pre) :: fl.erase (lo + 24 + sumSizes pre + b.size), ep⟩
              hpos pre.length (by simp) (by rw [getD_append_len])
            rwa [payloadAddr_append_len] at this
          · have hmem : a ∈ fl := List.mem_of_mem_erase ha
            have hane : a ≠ lo + 24 + sumSizes pre + b.size :=
              ((List.Nodup.mem_erase_iff hnd).mp ha).1
            have hold := hfl a hmem
            rcases entryOK_elim _ a hold with ⟨j, hj, haj, hfree⟩
            have hj' : j < (pre ++ b :: c :: rest).length := hj
            have hfree' : ((pre ++ b :: c :: rest).getD j dummy).alloc = false := hfree
            have haj' : a = payloadAddr lo (pre ++ b :: c :: rest) j := haj
            have hjne0 : j ≠ pre.length := by
              intro h
              rw [h] at haj'
              rw [payloadAddr_append_len] at haj'
              exact hni (haj' ▸ hmem)
            have hjne1 : j ≠ pre.length + 1 := by
              intro h
              rw [h] at haj'
              rw [payloadAddr_append_len1] at haj'
              exact hane haj'
            apply entry_transfer lo pre [b, c] [⟨b.size + c.size, false, true⟩] rest
              (pre ++ b :: c :: rest) (pre ++ (⟨b.size + c.size, false, true⟩ : Block) :: rest)
              ((lo + 24 + sumSizes pre) :: fl.erase (lo + 24 + sumSizes pre + b.size)) ep
              (by simp) (by simp) (by simp [sumSizes])
              hpos a j hj' haj' hfree'
            simp only [List.length_append, List.length_cons, List.length_nil] at hj' ⊢
            omega
        · simp only
          refine List.nodup_cons.mpr ⟨?_, List.Nodup.erase _ hnd⟩
          intro hmem
          exact hni (List.mem_of_mem_erase hmem)
  · have hbf : b.prealloc = false := by simpa using hpb
    have hendf : allocEnd true pre = false := by rw [← hbp]; exact hbf
    obtain ⟨pre'', q, rfl, hqa, hqp, hpre'', hend'', hq8, hq16⟩ :=
      pre_decomp_of_allocEnd_false pre hpre hendf
    have hlist : (pre'' ++ [q]) ++ b :: post = pre'' ++ q :: b :: post := by simp
    have hlen : (pre'' ++ [q]).length = pre''.length + 1 := by simp
    have hni' : (lo + 24 + sumSizes pre'' + q.size) ∉ fl := by
      rw [sumSizes_append, sumSizes_cons, sumSizes_nil] at hni
      intro h
      exact hni (by rw [show lo + 24 + (sumSizes pre'' + (q.size + 0)) =
        lo + 24 + sumSizes pre'' + q.size by omega]; exact h)
    have htake : pre'' = (pre'' ++ [q]).take pre''.length := by
      rw [take_append_of_le pre'' [q] pre''.length (Nat.le_refl _), List.take_length]
    rw [hlist, hlen]
    cases post with
    | nil =>
      rw [merge_case_predfree_nil lo pre'' q b fl ep hbf]
      have hpos : ∀ bk ∈ pre'' ++ (⟨q.size + b.size, false, q.prealloc⟩ : Block) :: [],
          0 < bk.size := by
        intro bk hbk
        rcases List.mem_append.mp hbk with h | h
        · exact chainOK_sizes_pos true pre'' hpre'' bk h
        · rcases List.mem_cons.mp h with rfl | h
          · simp only
            omega
          · simp at h
      refine ⟨⟨?_, ?_, ?_, ?_⟩, rfl,
        ⟨pre'', ⟨q.size + b.size, false, q.prealloc⟩, [], rfl, rfl, rfl,
          by simp only; omega, by simp, by rw [← htake]⟩,
        Or.inr ⟨by simp, hendf⟩⟩
      · rw [chainOK_append]
        simp only [Bool.and_eq_true]
        refine ⟨hpre'', ?_⟩
        rw [chainOK_cons]
        simp [hqp, hend'', chainOK]
        omega
      · simp only
        rw [allocEnd_append, allocEnd_cons, allocEnd_nil]
      · intro a ha
        rcases List.mem_cons.mp ha with rfl | ha
        · have := entryOK_of_idx ⟨lo, pre'' ++ [⟨q.size + b.size, false, q.prealloc⟩],
            (lo + 24 + sumSizes pre'') :: fl.erase (lo + 24 + sumSizes pre''), false⟩
            hpos pre''.length (by simp) (by rw [getD_append_len])
          rwa [payloadAddr_append_len] at this
        · have hmem : a ∈ fl := List.mem_of_mem_erase ha
          have hane : a ≠ lo + 24 + sumSizes pre'' := ((List.Nodup.mem_erase_iff hnd).mp ha).1
          have hold := hfl a hmem
          rcases entryOK_elim _ a hold with ⟨j, hj, haj, hfree⟩
          have hj' : j < (pre'' ++ q :: b :: []).length := by rw [← hlist]; exact hj
          have hfree' : ((pre'' ++ q :: b :: []).getD j dummy).alloc = false := by
            rw [← hlist]; exact hfree
          have haj' : a = payloadAddr lo (pre'' ++ q :: b :: []) j := by
            rw [← hlist]; exact haj
          have hjne0 : j ≠ pre''.length := by
            intro h
            rw [h, payloadAddr_append_len] at haj'
            exact hane haj'
          have hjne1 : j ≠ pre''.length + 1 := by
            intro h
            rw [h, payloadAddr_append_len1] at haj'
            exact hni' (haj' ▸ hmem)
          apply entry_transfer lo pre'' [q, b] [⟨q.size + b.size, false, q.prealloc⟩] []
            (pre'' ++ q :: b :: []) (pre'' ++ (⟨q.size + b.size, false, q.prealloc⟩ : Block) :: [])
            ((lo + 24 + sumSizes pre'') :: fl.erase (lo + 24 + sumSizes pre'')) false
            (by simp) (by simp) (by simp [sumSizes])
            hpos a j hj' haj' hfree'
          simp only [List.length_append, List.length_cons, List.length_nil] at hj' ⊢
          omega
      · simp only
        refine List.nodup_cons.mpr ⟨?_, List.Nodup.erase _ hnd⟩
        intro hmem
        rcases (List.Nodup.mem_erase_iff hnd).mp hmem with ⟨h1, _⟩
        exact h1 rfl
    | cons c rest =>
      have hcs := postOK_sizes (c :: rest) hpost c (by simp)
      have hcchain : chainOK c.alloc rest = true := by
        unfold postOK at hpost
        simp only [Bool.and_eq_true] at hpost
        exact hpost.2
      have hepc : ep = allocEnd c.alloc rest := by
        have := hep (by simp)
        rwa [allocEnd_cons] at this
      by_cases hca : c.alloc = true
      · rw [merge_case_predfree_cons lo pre'' q b c rest fl ep hbf hca]
        have hpos : ∀ bk ∈ pre'' ++ (⟨q.size + b.size, false, q.prealloc⟩ : Block) ::
            (⟨c.size, c.alloc, false⟩ : Block) :: rest, 0 < bk.size := by
          intro bk hbk
          rcases List.mem_append.mp hbk with h | h
          · exact chainOK_sizes_pos true pre'' hpre'' bk h
          · rcases List.mem_cons.mp h with rfl | h
            · simp only
              omega
            · rcases List.mem_cons.mp h with rfl | h
              · simp only
                omega
              · have := chainOK_sizes c.alloc rest hcchain bk h
                omega
        have hctrue : chainOK true rest = true := by rwa [hca] at hcchain
        refine ⟨⟨?_, ?_, ?_, ?_⟩, rfl,
          ⟨pre'', ⟨q.size + b.size, false, q.prealloc⟩, ⟨c.size, c.alloc, false⟩ :: rest,
            rfl, rfl, rfl, by simp only; omega, by simp, by rw [← htake]⟩,
          Or.inr ⟨by simp, hendf⟩⟩
        · rw [chainOK_append]
          simp only [Bool.and_eq_true]
          refine ⟨hpre'', ?_⟩
          rw [chainOK_cons, chainOK_cons]
          simp [hqp, hend'', hca, hcs.1, hcs.2, hctrue]
          omega
        · simp only
          rw [hepc, allocEnd_append, allocEnd_cons, allocEnd_cons]
        · intro a ha
          rcases List.mem_cons.mp ha with rfl | ha
          · have := entryOK_of_idx ⟨lo, pre'' ++ (⟨q.size + b.size, false, q.prealloc⟩ : Block) ::
              (⟨c.size, c.alloc, false⟩ : Block) :: rest,
              (lo + 24 + sumSizes pre'') :: fl.erase (lo + 24 + sumSizes pre''), ep⟩
              hpos pre''.length (by simp) (by rw [getD_append_len])
            rwa [payloadAddr_append_len] at this
          · have hmem : a ∈ fl := List.mem_of_mem_erase ha
            have hane : a ≠ lo + 24 + sumSizes pre'' := ((List.Nodup.mem_erase_iff hnd).mp ha).1
            have hold := hfl a hmem
            rcases entryOK_elim _ a hold with ⟨j, hj, haj, hfree⟩
            have hj' : j < (pre'' ++ q :: b :: c :: rest).length := by rw [← hlist]; exact hj
            have hfree' : ((pre'' ++ q :: b :: c :: rest).getD j dummy).alloc = false := by
              rw [← hlist]; exact hfree
            have haj' : a = payloadAddr lo (pre'' ++ q :: b :: c :: rest) j := by
              rw [← hlist]; exact haj
            have hjne0 : j ≠ pre''.length := by
              intro h
              rw [h, payloadAddr_append_len] at haj'
              exact hane haj'
            have hjne1 : j ≠ pre''.length + 1 := by
              intro h
              rw [h, payloadAddr_append_len1] at haj'
              exact hni' (haj' ▸ hmem)
            have hjne2 : j ≠ pre''.length + 2 := by
              intro h
              rw [h, getD_append_len2] at hfree'
              rw [hca] at hfree'
              simp at hfree'
            apply entry_transfer lo pre'' [q, b, c]
              [⟨q.size + b.size, false, q.prealloc⟩, ⟨c.size, c.alloc, false⟩] rest
              (pre'' ++ q :: b :: c :: rest)
              (pre'' ++ (⟨q.size + b.size, false, q.prealloc⟩ : Block) ::
                (⟨c.size, c.alloc, false⟩ : Block) :: rest)
              ((lo + 24 + sumSizes pre'') :: fl.erase (lo + 24 + sumSizes pre'')) ep
              (by simp) (by simp) (by simp [sumSizes]; omega)
              hpos a j hj' haj' hfree'
            simp only [List.length_append, List.length_cons, List.length_nil] at hj' ⊢
            omega
        · simp only
          refine List.nodup_cons.mpr ⟨?_, List.Nodup.erase _ hnd⟩
          intro hmem
          rcases (List.Nodup.mem_erase_iff hnd).mp hmem with ⟨h1, _⟩
          exact h1 rfl
      · have hcf : c.alloc = false := by simpa using hca
        rw [merge_case_bothfree lo pre'' q b c rest fl ep hbf hcf]
        have hrest : chainOK false rest = true := by rwa [hcf] at hcchain
        have hpos : ∀ bk ∈ pre'' ++ (⟨q.size + b.size + c.size, false, q.prealloc⟩ : Block) ::
            rest, 0 < bk.size := by
          intro bk hbk
          rcases List.mem_append.mp hbk with h | h
          · exact chainOK_sizes_pos true pre'' hpre'' bk h
          · rcases List.mem_cons.mp h with rfl | h
            · simp only
              omega
            · have := chainOK_sizes c.alloc rest hcchain bk h
              omega
        refine ⟨⟨?_, ?_, ?_, ?_⟩, rfl,
          ⟨pre'', ⟨q.size + b.size + c.size, false, q.prealloc⟩, rest,
            rfl, rfl, rfl, by simp only; omega, by simp, by rw [← htake]⟩,
          Or.inr ⟨by simp, hendf⟩⟩
        · rw [chainOK_append]
          simp only [Bool.and_eq_true]
          refine ⟨hpre'', ?_⟩
          rw [chainOK_cons]
          have hc8 := hcs.1
          have hc16 := hcs.2
          simp [hqp, hend'', hrest]
          omega
        · simp only
          rw [hepc, allocEnd_append, allocEnd_cons]
          rw [hcf]
        · intro a ha
          rcases List.mem_cons.mp ha with rfl | ha
          · have := entryOK_of_idx ⟨lo, pre'' ++
              (⟨q.size + b.size + c.size, false, q.prealloc⟩ : Block) :: rest,
              (lo + 24 + sumSizes pre'') ::
                ((fl.erase (lo + 24 + sumSizes pre'')).erase
                  (lo + 24 + sumSizes pre'' + q.size + b.size)), ep⟩
              hpos pre''.length (by simp) (by rw [getD_append_len])
            rwa [payloadAddr_append_len] at this
          · have hmem1 : a ∈ fl.erase (lo + 24 + sumSizes pre'') := List.mem_of_mem_erase ha
            have hmem : a ∈ fl := List.mem_of_mem_erase hmem1
            have hane : a ≠ lo + 24 + sumSizes pre'' :=
              ((List.Nodup.mem_erase_iff hnd).mp hmem1).1
            have hane2 : a ≠ lo + 24 + sumSizes pre'' + q.size + b.size :=
              ((List.Nodup.mem_erase_iff (List.Nodup.erase _ hnd)).mp ha).1
            have hold := hfl a hmem
            rcases entryOK_elim _ a hold with ⟨j, hj, haj, hfree⟩
            have hj' : j < (pre'' ++ q :: b :: c :: rest).length := by rw [← hlist]; exact hj
            have hfree' : ((pre'' ++ q :: b :: c :: rest).getD j dummy).alloc = false := by
              rw [← hlist]; exact hfree
            have haj' : a = payloadAddr lo (pre'' ++ q :: b :: c :: rest) j := by
              rw [← hlist]; exact haj
            have hjne0 : j ≠ pre''.length := by
              intro h
              rw [h, payloadAddr_append_len] at haj'
              exact hane haj'
            have hjne1 : j ≠ pre''.length + 1 := by
              intro h
              rw [h, payloadAddr_append_len1] at haj'
              exact hni' (haj' ▸ hmem)
            have hjne2 : j ≠ pre''.length + 2 := by
              intro h
              rw [h, payloadAddr_append_len2] at haj'
              exact hane2 (by rw [haj'])
            apply entry_transfer lo pre'' [q, b, c]
              [⟨q.size + b.size + c.size, false, q.prealloc⟩] rest
              (pre'' ++ q :: b :: c :: rest)
              (pre'' ++ (⟨q.size + b.size + c.size, false, q.prealloc⟩ : Block) :: rest)
              ((lo + 24 + sumSizes pre'') ::
                ((fl.erase (lo + 24 + sumSizes pre'')).erase
                  (lo + 24 + sumSizes pre'' + q.size + b.size))) ep
              (by simp) (by simp) (by simp [sumSizes]; omega)
              hpos a j hj' haj' hfree'
            simp only [List.length_append, List.length_cons, List.length_nil] at hj' ⊢
            omega
        · simp only
          refine List.nodup_cons.mpr ⟨?_, List.Nodup.erase _ (List.Nodup.erase _ hnd)⟩
          intro hmem
          have hmem1 := List.mem_of_mem_erase hmem
          rcases (List.Nodup.mem_erase_iff hnd).mp hmem1 with ⟨h1, _⟩
          exact h1 rfl


theorem allocEnd_indep (p p' : Bool) (post : List Block) (h : post ≠ []) :
    allocEnd p post = allocEnd p' post := by
  cases post with
  | nil => exact absurd rfl h
  | cons c rest => rw [allocEnd_cons, allocEnd_cons]

theorem chainOK_split_at (bs pre : List Block) (bb : Block) (post : List Block)
    (hdec : bs = pre ++ bb :: post) (h : chainOK true bs = true) :
    chainOK true pre = true ∧ (bb.prealloc = allocEnd true pre) ∧
      (allocEnd true pre = true ∨ bb.alloc = true) ∧ bb.size % 8 = 0 ∧ 16 ≤ bb.size ∧
      chainOK bb.alloc post = true := by
  rw [hdec, chainOK_append] at h
  simp only [Bool.and_eq_true] at h
  have h2 := h.2
  rw [chainOK_cons] at h2
  simp only [Bool.and_eq_true, Bool.or_eq_true, decide_eq_true_eq, beq_iff_eq] at h2
  exact ⟨h.1, h2.1.1.1.1, h2.1.1.1.2, h2.1.1.2, h2.1.2, h2.2⟩

theorem build_inv (lo : Nat) (bs : List Block) (fl : List Nat) (ep : Bool) (i size : Nat)
    (hInv : Inv ⟨lo, bs, fl, ep⟩) (hi : i < bs.length)
    (hfree : (bs.getD i dummy).alloc = false)
    (hs8 : size % 8 = 0) (h16 : 16 ≤ size)
    (hle : size ≤ (bs.getD i dummy).size) :
    Inv (build ⟨lo, bs, fl, ep⟩ i size) := by
  obtain ⟨hchain, hepi, hfl, hnd⟩ := hInv
  dsimp only at hchain hepi hfl hnd
  obtain ⟨hdec, hlen⟩ := blocks_decomp bs i hi
  set bb := bs.getD i dummy with hbb
  obtain ⟨hpre, hbp, hor, hb8, hb16, hpost⟩ := chainOK_split_at bs (bs.take i)
    bb (bs.drop (i + 1)) hdec hchain
  have hendpre : allocEnd true (bs.take i) = true := by
    rcases hor with h | h
    · exact h
    · rw [hfree] at h; simp at h
  have hbptrue : (bb).prealloc = true := by rw [hbp, hendpre]
  have hpostb : chainOK false (bs.drop (i + 1)) = true := by rwa [hfree] at hpost
  have haddr : payloadAddr lo bs i = lo + 24 + sumSizes (bs.take i) := rfl
  have hpos : ∀ b ∈ bs, 0 < b.size := fun b hb => chainOK_sizes_pos true bs hchain b hb
  -- entries of the erased free list avoid the built block and keep their own
  have hfl' : ∀ a ∈ fl.erase (payloadAddr lo bs i), a ∈ fl ∧
      ∃ j, j < bs.length ∧ a = payloadAddr lo bs j ∧
        (bs.getD j dummy).alloc = false ∧ j ≠ i := by
    intro a ha
    have hmem : a ∈ fl := List.mem_of_mem_erase ha
    have hane : a ≠ payloadAddr lo bs i := ((List.Nodup.mem_erase_iff hnd).mp ha).1
    rcases entryOK_elim _ a (hfl a hmem) with ⟨j, hj, haj, hfj⟩
    refine ⟨hmem, j, hj, haj, hfj, ?_⟩
    intro h
    rw [h] at haj
    exact hane haj
  unfold build
  simp only
  by_cases hsplit : size + 16 < (bb).size
  · rw [if_pos hsplit]
    have hble : bs.take i ++ (⟨size, true, (bb).prealloc⟩ : Block) ::
        (⟨(bb).size - size, false, true⟩ : Block) :: bs.drop (i + 1) =
        (bs.take i ++ [⟨size, true, (bb).prealloc⟩]) ++
          (⟨(bb).size - size, false, true⟩ : Block) :: bs.drop (i + 1) := by
      simp
    have hidx : i + 1 = (bs.take i ++ [(⟨size, true, (bb).prealloc⟩ : Block)]).length := by
      simp [hlen]
    rw [hble]
    nth_rewrite 2 [hidx]
    have hmain := merge_inv lo (bs.take i ++ [⟨size, true, (bb).prealloc⟩])
      ⟨(bb).size - size, false, true⟩ (bs.drop (i + 1))
      (fl.erase (payloadAddr lo bs i)) ep ?_ rfl (by simp only; omega) (by simp only; omega)
      ?_ ?_ ?_ ?_ ?_ ?_
    · exact hmain.1
    · rw [chainOK_append]
      simp only [Bool.and_eq_true]
      refine ⟨hpre, ?_⟩
      rw [chainOK_cons]
      simp [hbptrue, hendpre, hs8, h16, chainOK]
    · simp only
      rw [allocEnd_append, allocEnd_cons, allocEnd_nil]
    · exact postOK_of_chainOK false _ hpostb
    · intro hne
      rw [hepi]
      nth_rewrite 1 [hdec]
      rw [allocEnd_append, allocEnd_cons]
      exact allocEnd_indep _ _ _ hne
    · intro a ha
      rcases hfl' a ha with ⟨hmem, j, hj, haj, hfj, hjne⟩
      apply entry_transfer lo (bs.take i) [bb]
        [⟨size, true, (bb).prealloc⟩,
          ⟨(bb).size - size, false, true⟩] (bs.drop (i + 1))
        bs _ _ _ ?_ (by simp) (by simp [sumSizes]; omega)
        ?_ a j hj haj hfj ?_
      · conv_lhs => rw [hdec]
        simp
      · intro bk hbk
        simp only [List.append_assoc, List.cons_append, List.nil_append] at hbk
        rcases List.mem_append.mp hbk with h | h
        · exact hpos bk (by rw [hdec]; exact List.mem_append.mpr (Or.inl h))
        · rcases List.mem_cons.mp h with rfl | h
          · simp only; omega
          · rcases List.mem_cons.mp h with rfl | h
            · simp only; omega
            · refine hpos bk ?_
              rw [hdec]
              exact List.mem_append.mpr (Or.inr (List.mem_cons.mpr (Or.inr h)))
      · simp only [hlen, List.length_cons, List.length_nil]
        omega
    · exact List.Nodup.erase _ hnd
    · intro hmem
      rcases hfl' _ hmem with ⟨_, j, hj, haj, _, hjne⟩
      have hsum2 : sumSizes (bs.take i ++ [(⟨size, true, bb.prealloc⟩ : Block)]) =
          sumSizes (bs.take i) + size := by
        rw [sumSizes_append, sumSizes_cons, sumSizes_nil]
        rfl
      rw [hsum2] at haj
      rcases Nat.lt_or_ge j i with hlt | hge
      · have hjlt : payloadAddr lo bs j < payloadAddr lo bs i :=
          payloadAddr_strict lo bs hpos j i hlt (by omega)
        rw [haddr] at hjlt
        omega
      · have hge' : i + 1 ≤ j := by omega
        have h2 := payloadAddr_mono lo bs (i + 1) j hge'
        rw [payloadAddr_succ lo bs i hi, haddr, ← hbb] at h2
        omega
  · rw [if_neg hsplit]
    have hset : bs.set i ⟨(bb).size, true, (bb).prealloc⟩ =
        bs.take i ++ (⟨(bb).size, true, (bb).prealloc⟩ : Block) ::
          bs.drop (i + 1) := by
      have hx := set_append_len (bs.take i) bb (bs.drop (i + 1))
        ⟨(bb).size, true, (bb).prealloc⟩
      rw [hlen, ← hdec] at hx
      exact hx
    rw [hset]
    unfold setPre
    simp only [List.length_append, List.length_cons, hlen]
    cases hpostc : bs.drop (i + 1) with
    | nil =>
      rw [if_neg (by simp only [List.length_nil]; omega)]
      constructor
      · simp only
        rw [chainOK_append]
        simp only [Bool.and_eq_true]
        refine ⟨hpre, ?_⟩
        rw [chainOK_cons]
        simp [hbptrue, hendpre, hb8, hb16, chainOK]
      refine ⟨?_, ?_, ?_⟩
      · simp only
        rw [allocEnd_append, allocEnd_cons, allocEnd_nil]
      · intro a ha
        rcases hfl' a ha with ⟨hmem, j, hj, haj, hfj, hjne⟩
        apply entry_transfer lo (bs.take i) [bb]
          [⟨(bb).size, true, (bb).prealloc⟩] []
          bs _ _ _ ?_ (by simp) (by simp [sumSizes])
          ?_ a j hj haj hfj ?_
        · conv_lhs => rw [hdec]
          rw [hpostc]
          simp
        · intro bk hbk
          simp only [List.append_assoc, List.cons_append, List.nil_append,
            List.append_nil] at hbk
          rcases List.mem_append.mp hbk with h | h
          · exact hpos bk (by rw [hdec]; exact List.mem_append.mpr (Or.inl h))
          · rcases List.mem_cons.mp h with rfl | h
            · simp only; omega
            · simp at h
        · simp only [hlen, List.length_cons, List.length_nil]
          omega
      · exact List.Nodup.erase _ hnd
    | cons c rest =>
      rw [if_pos (by simp only [List.length_cons]; omega)]
      have hgd : (bs.take i ++ (⟨(bb).size, true, (bb).prealloc⟩ : Block) ::
          c :: rest).getD (i + 1) dummy = c := by
        have hx := getD_append_len1 (bs.take i) ⟨(bb).size, true, (bb).prealloc⟩ c rest dummy
        rw [hlen] at hx
        exact hx
      rw [hgd]
      have hsetc : (bs.take i ++ (⟨(bb).size, true, (bb).prealloc⟩ : Block) ::
          c :: rest).set (i + 1) ⟨c.size, c.alloc, true⟩ =
          bs.take i ++ (⟨(bb).size, true, (bb).prealloc⟩ : Block) ::
            (⟨c.size, c.alloc, true⟩ : Block) :: rest := by
        have hx := set_append_len1 (bs.take i) ⟨(bb).size, true, (bb).prealloc⟩ c rest
          ⟨c.size, c.alloc, true⟩
        rw [hlen] at hx
        exact hx
      rw [hsetc]
      have hpc : chainOK false (c :: rest) = true := by rwa [hpostc] at hpostb
      rw [chainOK_cons] at hpc
      simp only [Bool.and_eq_true, Bool.or_eq_true, decide_eq_true_eq, beq_iff_eq] at hpc
      have hcalloc : c.alloc = true := by
        rcases hpc.1.1.1.2 with h | h
        · simp at h
        · exact h
      constructor
      · simp only
        rw [chainOK_append]
        simp only [Bool.and_eq_true]
        refine ⟨hpre, ?_⟩
        rw [chainOK_cons, chainOK_cons]
        have hcc : chainOK c.alloc rest = true := hpc.2
        rw [hcalloc] at hcc
        simp [hbptrue, hendpre, hb8, hb16, hpc.1.1.2, hpc.1.2, hcalloc, hcc]
      refine ⟨?_, ?_, ?_⟩
      · simp only
        rw [hepi]
        nth_rewrite 1 [hdec]
        rw [allocEnd_append, allocEnd_cons, allocEnd_append, allocEnd_cons, hpostc,
          allocEnd_cons, allocEnd_cons]
      · intro a ha
        rcases hfl' a ha with ⟨hmem, j, hj, haj, hfj, hjne⟩
        have hjne1 : j ≠ i + 1 := by
          intro h
          rw [h] at hfj
          have hcx : (bs.getD (i + 1) dummy) = c := by
            have hy := getD_append_len1 (bs.take i) bb c rest dummy
            rw [hlen] at hy
            rw [← hy]
            conv_lhs => rw [hdec, hpostc]
          rw [hcx, hcalloc] at hfj
          simp at hfj
        apply entry_transfer lo (bs.take i) [bb, c]
          [⟨(bb).size, true, (bb).prealloc⟩, ⟨c.size, c.alloc, true⟩] rest
          bs _ _ _ ?_ (by simp) (by simp [sumSizes])
          ?_ a j hj haj hfj ?_
        · conv_lhs => rw [hdec]
          rw [hpostc]
          simp
        · intro bk hbk
          simp only [List.append_assoc, List.cons_append, List.nil_append] at hbk
          rcases List.mem_append.mp hbk with h | h
          · exact hpos bk (by rw [hdec]; exact List.mem_append.mpr (Or.inl h))
          · rcases List.mem_cons.mp h with rfl | h
            · simp only; omega
            · rcases List.mem_cons.mp h with rfl | h
              · simp only
                have := chainOK_sizes false (c :: rest) (by rwa [hpostc] at hpostb) c (by simp)
                omega
              · refine hpos bk ?_
                rw [hdec, hpostc]
                exact List.mem_append.mpr
                  (Or.inr (List.mem_cons.mpr (Or.inr (List.mem_cons.mpr (Or.inr h)))))
        · simp only [hlen, List.length_cons, List.length_nil]
          omega
      · exact List.Nodup.erase _ hnd

theorem sumSizes_take_lt (bs : List Block) (j : Nat) (hj : j < bs.length)
    (hpos : ∀ b ∈ bs, 0 < b.size) : sumSizes (bs.take j) < sumSizes bs := by
  have h := payloadAddr_strict 0 bs hpos j bs.length hj (by omega)
  unfold payloadAddr at h
  rw [List.take_length] at h
  omega

theorem extendHeap_inv (s : Heap) (w : Nat) (hInv : Inv s) (hw : 4 ≤ w) :
    Inv (extendHeap s w).1 ∧ (extendHeap s w).1.lo = s.lo ∧
      (∃ pre2 b2 post2,
        (extendHeap s w).1.blocks = pre2 ++ b2 :: post2 ∧
        (extendHeap s w).2 = pre2.length ∧
        b2.alloc = false ∧ (if w % 2 = 1 then (w + 1) * 4 else w * 4) ≤ b2.size ∧
        pre2.length ≤ s.blocks.length ∧ pre2 = s.blocks.take pre2.length) ∧
      ((extendHeap s w).2 = s.blocks.length ∨
        ((extendHeap s w).2 + 1 = s.blocks.length ∧ allocEnd true s.blocks = false)) := by
  obtain ⟨hchain, hepi, hfl0, hnd⟩ := hInv
  set rounded := if w % 2 = 1 then (w + 1) * 4 else w * 4 with hrdef
  have hr8 : rounded % 8 = 0 := by
    have h2 : w % 2 = 0 ∨ w % 2 = 1 := by omega
    rcases h2 with h | h
    · rw [hrdef, if_neg (by omega)]
      omega
    · rw [hrdef, if_pos h]
      omega
  have hr16 : 16 ≤ rounded := by
    have : w * 4 ≤ rounded := by
      rw [hrdef]
      split <;> omega
    omega
  have hposold : ∀ b ∈ s.blocks, 0 < b.size := chainOK_sizes_pos true s.blocks hchain
  have hposnew : ∀ b ∈ s.blocks ++ [(⟨rounded, false, s.epiPrealloc⟩ : Block)], 0 < b.size := by
    intro b hb
    rcases List.mem_append.mp hb with h | h
    · exact hposold b h
    · rcases List.mem_cons.mp h with rfl | h
      · simp only
        omega
      · simp at h
  have hm := merge_inv s.lo s.blocks ⟨rounded, false, s.epiPrealloc⟩ [] s.freeList false
    hchain rfl hr8 hr16 hepi rfl (fun h => absurd rfl h)
    ?_ hnd ?_
  · unfold extendHeap
    rw [← hrdef]
    obtain ⟨h1, h2, ⟨pre2, b2, post2, hb1, hb2, hb3, hb4, hb5, hb6⟩, h4⟩ := hm
    exact ⟨h1, h2, ⟨pre2, b2, post2, hb1, hb2, hb3, hb4, hb5, hb6⟩, h4⟩
  · intro a ha
    have h1 := hfl0 a ha
    rcases entryOK_elim s a h1 with ⟨j, hj, haj, hfree⟩
    have haddr : payloadAddr s.lo s.blocks j =
        payloadAddr s.lo (s.blocks ++ [(⟨rounded, false, s.epiPrealloc⟩ : Block)]) j := by
      apply payloadAddr_take_eq
      rw [take_append_of_le s.blocks _ j (by omega)]
    have hgd : ((s.blocks ++ [(⟨rounded, false, s.epiPrealloc⟩ : Block)]).getD j dummy) =
        s.blocks.getD j dummy := getD_append_left s.blocks _ dummy j hj
    have := entryOK_of_idx ⟨s.lo, s.blocks ++ [(⟨rounded, false, s.epiPrealloc⟩ : Block)],
      s.freeList, false⟩ hposnew j (by simp; omega) (by rw [hgd]; exact hfree)
    rw [haj, haddr]
    exact this
  · intro hmem
    have h1 := hfl0 _ hmem
    rcases entryOK_elim s _ h1 with ⟨j, hj, haj, _⟩
    have hlt := sumSizes_take_lt s.blocks j hj hposold
    unfold payloadAddr at haj
    omega

end S

theorem Fit.combine_cases (best : Option (Nat × Nat)) (x y : Nat × Nat)
    (h : Fit.combine best x = some y) : y = x ∨ best = some y := by
  unfold Fit.combine at h
  cases best with
  | none => exact Or.inl (by simpa using h.symm)
  | some b =>
    simp only at h
    by_cases hc : x.2 < b.2
    · rw [if_pos hc] at h
      exact Or.inl (by simpa using h.symm)
    · rw [if_neg hc] at h
      exact Or.inr (by simpa using h)

theorem MMC.allocGo_mem (req : Nat) (l : List (Nat × Nat)) :
    ∀ best fc nc x, MMC.allocGo req l best fc nc = some x →
      best = some x ∨ (x ∈ l ∧ Fit.fitsReq req x = true) := by
  induction l with
  | nil =>
    intro best fc nc x h
    unfold MMC.allocGo at h
    exact Or.inl h
  | cons a l ih =>
    intro best fc nc x h
    unfold MMC.allocGo at h
    by_cases hfit : Fit.fitsReq req a
    · rw [if_pos hfit] at h
      simp only at h
      by_cases hmax : fc + 1 = MMC.MAX_FIT
      · rw [if_pos hmax] at h
        rcases Fit.combine_cases best a x h with rfl | hb
        · exact Or.inr ⟨by simp, hfit⟩
        · exact Or.inl hb
      · rw [if_neg hmax] at h
        rcases ih _ _ _ _ h with hb | ⟨hmem, hf⟩
        · rcases Fit.combine_cases best a x hb with rfl | hb2
          · exact Or.inr ⟨by simp, hfit⟩
          · exact Or.inl hb2
        · exact Or.inr ⟨by simp [hmem], hf⟩
    · rw [if_neg hfit] at h
      by_cases hstop : MMC.MAX_NFIT < nc + 1 ∧ fc ≠ 0
      · rw [if_pos hstop] at h
        exact Or.inl h
      · rw [if_neg hstop] at h
        rcases ih _ _ _ _ h with hb | ⟨hmem, hf⟩
        · exact Or.inl hb
        · exact Or.inr ⟨by simp [hmem], hf⟩

theorem MMC.allocate_mem (req : Nat) (l : List (Nat × Nat)) (x : Nat × Nat)
    (h : MMC.allocate req l = some x) : x ∈ l ∧ req ≤ x.2 := by
  rcases MMC.allocGo_mem req l none 0 0 x h with hb | ⟨hmem, hf⟩
  · exact absurd hb (by simp)
  · exact ⟨hmem, by simpa [Fit.fitsReq] using hf⟩

namespace S

theorem setPre_lo (s : Heap) (i : Nat) (v : Bool) : (setPre s i v).lo = s.lo := by
  unfold setPre
  split <;> rfl

theorem insertAddr_lo (s : Heap) (a : Nat) : (insertAddr s a).lo = s.lo := rfl

theorem merge_lo (s : Heap) (i : Nat) : (merge s i).1.lo = s.lo := by
  simp only [merge]
  split
  · rw [insertAddr_lo, setPre_lo]
  split
  · rfl
  split
  · split
    · rfl
    · rw [insertAddr_lo, setPre_lo]
  · split
    · rfl
    · rfl

theorem build_lo (s : Heap) (i size : Nat) : (build s i size).lo = s.lo := by
  simp only [build]
  split
  · rw [merge_lo]
  · rw [setPre_lo]

theorem extendHeap_lo (s : Heap) (w : Nat) : (extendHeap s w).1.lo = s.lo := by
  simp only [extendHeap]
  rw [merge_lo]

theorem malloc_lo (s : Heap) (n : Nat) (ok : Bool) : (malloc s n ok).1.lo = s.lo := by
  simp only [malloc]
  split
  · rfl
  split
  · split
    · rw [build_lo]
    · rfl
  split
  · simp only
    rw [build_lo, extendHeap_lo]
  · rfl

theorem free_lo (s : Heap) (a : Nat) : (free s a).lo = s.lo := by
  simp only [free]
  split
  · rfl
  split
  · split
    · rw [merge_lo]
    · rfl
  · rfl

theorem step_lo (s : Heap) (op : Op) : (step s op).1.lo = s.lo := by
  cases op with
  | omalloc n ok => exact malloc_lo s n ok
  | ofree a => exact free_lo s a
  | orealloc a n ok =>
    simp only [step, realloc]
    split
    · rw [free_lo]
    split
    · rw [malloc_lo]
    split
    · rw [malloc_lo]
    · simp only
      rw [free_lo, malloc_lo]
  | ocalloc m n ok =>
    simp only [step, calloc]
    rw [malloc_lo]

theorem payloadAddr_inj (lo : Nat) (bs : List Block) (hpos : ∀ b ∈ bs, 0 < b.size)
    (i j : Nat) (hi : i ≤ bs.length) (hj : j ≤ bs.length)
    (h : payloadAddr lo bs i = payloadAddr lo bs j) : i = j := by
  rcases Nat.lt_trichotomy i j with hc | hc | hc
  · have := payloadAddr_strict lo bs hpos i j hc hj
    omega
  · exact hc
  · have := payloadAddr_strict lo bs hpos j i hc hi
    omega

end S

namespace S

theorem adjust_mod8 (n : Nat) : adjust n % 8 = 0 := by
  unfold adjust
  omega

theorem adjust_ge16 (n : Nat) : 16 ≤ adjust n := by
  unfold adjust
  omega

theorem allocate_elim (s : Heap) (req a : Nat) (h : allocate s req = some a) :
    a ∈ s.freeList ∧ req ≤ sizeAtAddr s a := by
  unfold allocate at h
  cases hx : MMC.allocate req (s.freeList.map fun a => (a, sizeAtAddr s a)) with
  | none => rw [hx] at h; simp at h
  | some x =>
    rw [hx] at h
    simp only [Option.map_some'] at h
    have hax : x.1 = a := by simpa using h
    rcases MMC.allocate_mem req _ x hx with ⟨hmem, hreq⟩
    rcases List.mem_map.mp hmem with ⟨a0, ha0, hxa⟩
    have h1 : a0 = a := by rw [← hax, ← hxa]
    subst h1
    refine ⟨ha0, ?_⟩
    rw [← hxa] at hreq
    exact hreq

end S

namespace S

theorem malloc_spec (s : Heap) (n : Nat) (ok : Bool) (hInv : Inv s) :
    Inv (malloc s n ok).1 ∧
      ∀ q, (malloc s n ok).2 = some q →
        q % 8 = s.lo % 8 ∧
        ∀ j, j < s.blocks.length → (s.blocks.getD j dummy).alloc = true →
          q ≠ payloadAddr s.lo s.blocks j := by
  have hpos : ∀ b ∈ s.blocks, 0 < b.size := chainOK_sizes_pos true s.blocks hInv.1
  have hsz8 : ∀ b ∈ s.blocks, b.size % 8 = 0 :=
    fun b hb => (chainOK_sizes true s.blocks hInv.1 b hb).1
  by_cases hn : n = 0
  · simp only [malloc, if_pos hn]
    exact ⟨hInv, fun q hq => by simp at hq⟩
  simp only [malloc, if_neg hn]
  cases hall : allocate s (adjust n) with
  | some a =>
    rcases allocate_elim s (adjust n) a hall with ⟨hmem, hszreq⟩
    have hek := hInv.2.2.1 a hmem
    unfold entryOK at hek
    cases hidx : idxOfAddr s a with
    | none => rw [hidx] at hek; simp at hek
    | some i =>
      rw [hidx] at hek
      simp only [Bool.not_eq_true'] at hek
      rcases idxOfAddr_mem s a i hidx with ⟨hilt, haddr⟩
      simp only [hidx]
      have hsize : sizeAtAddr s a = (s.blocks.getD i dummy).size := by
        unfold sizeAtAddr
        rw [hidx]
      refine ⟨?_, ?_⟩
      · exact build_inv s.lo s.blocks s.freeList s.epiPrealloc i (adjust n) hInv hilt hek
          (adjust_mod8 n) (adjust_ge16 n) (by rw [← hsize]; exact hszreq)
      · intro q hq
        have hqa : q = a := by simpa using hq.symm
        subst hqa
        constructor
        · rw [haddr]
          exact payloadAddr_mod8 s.lo s.blocks i hsz8
        · intro j hj hjalloc heq
          rw [haddr] at heq
          have hij := payloadAddr_inj s.lo s.blocks hpos i j (by omega) (by omega) heq
          rw [← hij] at hjalloc
          rw [hjalloc] at hek
          exact Bool.noConfusion hek
  | none =>
    cases ok with
    | false =>
      simp only [Bool.false_eq_true, if_false]
      exact ⟨hInv, fun q hq => by simp at hq⟩
    | true =>
      simp only [if_true]
      have h8 := adjust_mod8 n
      have h16 := adjust_ge16 n
      obtain ⟨hInvr, hlor, ⟨pre2, b2, post2, hb1, hb2, hb3, hb4, hb5, hb6⟩, hdisj⟩ :=
        extendHeap_inv s (adjust n / 4) hInv (by omega)
      have hround : (if (adjust n / 4) % 2 = 1 then (adjust n / 4 + 1) * 4
          else (adjust n / 4) * 4) = adjust n := by
        rw [if_neg (by omega)]
        omega
      rw [hround] at hb4
      have hposr : ∀ b ∈ (extendHeap s (adjust n / 4)).1.blocks, 0 < b.size :=
        chainOK_sizes_pos true _ hInvr.1
      have hilt : (extendHeap s (adjust n / 4)).2 <
          (extendHeap s (adjust n / 4)).1.blocks.length := by
        rw [hb1, hb2]
        simp
      have hgd : (extendHeap s (adjust n / 4)).1.blocks.getD
          (extendHeap s (adjust n / 4)).2 dummy = b2 := by
        rw [hb1, hb2]
        exact getD_append_len pre2 b2 post2 dummy
      refine ⟨?_, ?_⟩
      · exact build_inv (extendHeap s (adjust n / 4)).1.lo
          (extendHeap s (adjust n / 4)).1.blocks
          (extendHeap s (adjust n / 4)).1.freeList
          (extendHeap s (adjust n / 4)).1.epiPrealloc
          (extendHeap s (adjust n / 4)).2 (adjust n) hInvr hilt
          (by rw [hgd]; exact hb3) (adjust_mod8 n) (adjust_ge16 n)
          (by rw [hgd]; exact hb4)
      · intro q hq
        have hqv : q = payloadAddr (extendHeap s (adjust n / 4)).1.lo
            (extendHeap s (adjust n / 4)).1.blocks (extendHeap s (adjust n / 4)).2 := by
          simpa using hq.symm
        subst hqv
        constructor
        · rw [payloadAddr_mod8 _ _ _ (fun b hb =>
            (chainOK_sizes true _ hInvr.1 b hb).1), hlor]
        · intro j hj hjalloc heq
          have hjcontra : ¬ j < pre2.length := by
            intro hjlt
            have htake : (extendHeap s (adjust n / 4)).1.blocks.take j = s.blocks.take j := by
              rw [hb1]
              rw [take_append_of_le pre2 (b2 :: post2) j (by omega)]
              rw [hb6, List.take_take, Nat.min_def, if_pos (by omega)]
            have heq2 : payloadAddr (extendHeap s (adjust n / 4)).1.lo
                (extendHeap s (adjust n / 4)).1.blocks j =
                payloadAddr s.lo s.blocks j := by
              unfold payloadAddr
              rw [htake, hlor]
            rw [← heq2] at heq
            have hinj := payloadAddr_inj (extendHeap s (adjust n / 4)).1.lo
              (extendHeap s (adjust n / 4)).1.blocks hposr
              (extendHeap s (adjust n / 4)).2 j (by omega) (by omega) heq
            omega
          rcases hdisj with hcase | ⟨hcase, hend⟩
          · exact hjcontra (by omega)
          · have hj' : j = s.blocks.length - 1 := by omega
            rcases pre_decomp_of_allocEnd_false s.blocks hInv.1 hend with
              ⟨u, c, hdecu, hcal, _, _, _, _, _⟩
            have hul : u.length = s.blocks.length - 1 := by
              rw [hdecu]
              simp
            have hgdc : s.blocks.getD j dummy = c := by
              rw [hj', ← hul, hdecu]
              exact getD_append_len u c [] dummy
            rw [hgdc, hcal] at hjalloc
            exact Bool.noConfusion hjalloc

end S

namespace S

theorem free_inv (s : Heap) (a : Nat) (hInv : Inv s) : Inv (free s a) := by
  obtain ⟨hchain, hepi, hfl, hnd⟩ := hInv
  simp only [free]
  split
  · exact ⟨hchain, hepi, hfl, hnd⟩
  cases hidx : idxOfAddr s a with
  | none => exact ⟨hchain, hepi, hfl, hnd⟩
  | some i =>
    simp only [hidx]
    split
    case isFalse => exact ⟨hchain, hepi, hfl, hnd⟩
    case isTrue halloc =>
      rcases idxOfAddr_mem s a i hidx with ⟨hilt, haddr⟩
      obtain ⟨hdec, hlen⟩ := blocks_decomp s.blocks i hilt
      set bb := s.blocks.getD i dummy with hbb
      obtain ⟨hpre, hbp, hor, hb8, hb16, hpost⟩ :=
        chainOK_split_at s.blocks (s.blocks.take i) bb (s.blocks.drop (i + 1)) hdec hchain
      have hset : s.blocks.set i ⟨(bb).size, false, (bb).prealloc⟩ =
          s.blocks.take i ++ (⟨(bb).size, false, (bb).prealloc⟩ : Block) ::
            s.blocks.drop (i + 1) := by
        have hx := set_append_len (s.blocks.take i) bb (s.blocks.drop (i + 1))
          ⟨(bb).size, false, (bb).prealloc⟩
        rw [hlen] at hx
        conv_lhs => rw [hdec]
        exact hx
      have hposall : ∀ b ∈ s.blocks, 0 < b.size := chainOK_sizes_pos true s.blocks hchain
      have hm := merge_inv s.lo (s.blocks.take i) ⟨(bb).size, false, (bb).prealloc⟩
        (s.blocks.drop (i + 1)) s.freeList s.epiPrealloc hpre rfl hb8 hb16 hbp
        (postOK_of_chainOK (bb).alloc _ hpost) ?_ ?_ hnd ?_
      · have hgoal := hm.1
        rw [hlen] at hgoal
        rw [hset]
        exact hgoal
      · intro hne
        rw [hepi]
        conv_lhs => rw [hdec]
        rw [allocEnd_append, allocEnd_cons]
        exact allocEnd_indep (bb).alloc true _ hne
      · intro x hx
        have h1 := hfl x hx
        rcases entryOK_elim s x h1 with ⟨j, hj, hxj, hfree⟩
        have hjne : j ≠ i := by
          intro h
          rw [h, ← hbb, halloc] at hfree
          exact Bool.noConfusion hfree
        apply entry_transfer s.lo (s.blocks.take i) [bb]
          [⟨(bb).size, false, (bb).prealloc⟩] (s.blocks.drop (i + 1))
          s.blocks _ _ _ ?_ (by simp) (by simp [sumSizes])
          ?_ x j hj hxj hfree ?_
        · conv_lhs => rw [hdec]
          simp
        · intro bk hbk
          simp only [List.append_assoc, List.cons_append, List.nil_append] at hbk
          rcases List.mem_append.mp hbk with h | h
          · exact hposall bk (List.mem_of_mem_take h)
          · rcases List.mem_cons.mp h with rfl | h
            · simp only
              omega
            · exact hposall bk (List.mem_of_mem_drop h)
        · simp only [hlen, List.length_cons, List.length_nil]
          omega
      · intro hmem
        have h1 := hfl _ hmem
        rcases entryOK_elim s _ h1 with ⟨j, hj, hxj, hfree⟩
        have hxi : s.lo + 24 + sumSizes (s.blocks.take i) = payloadAddr s.lo s.blocks i := rfl
        rw [hxi] at hxj
        have hij := payloadAddr_inj s.lo s.blocks hposall i j (by omega) (by omega) hxj
        rw [← hij, ← hbb, halloc] at hfree
        exact Bool.noConfusion hfree

end S

namespace S

theorem chainOK_noAdjacentFree (bs : List Block) :
    ∀ p, chainOK p bs = true → noAdjacentFree bs := by
  induction bs with
  | nil => intro p _; exact List.chain'_nil
  | cons b l ih =>
    intro p h
    rw [chainOK_cons] at h
    simp only [Bool.and_eq_true, Bool.or_eq_true, decide_eq_true_eq, beq_iff_eq] at h
    cases l with
    | nil => exact List.chain'_singleton b
    | cons c rest =>
      unfold noAdjacentFree
      rw [List.chain'_cons]
      refine ⟨?_, ih b.alloc h.2⟩
      have h2 := h.2
      rw [chainOK_cons] at h2
      simp only [Bool.and_eq_true, Bool.or_eq_true, decide_eq_true_eq, beq_iff_eq] at h2
      rcases h2.1.1.1.2 with hh | hh
      · exact Or.inl hh
      · exact Or.inr hh

theorem init_inv (lo : Nat) : Inv (init lo) := by
  refine ⟨rfl, rfl, ?_, List.nodup_nil⟩
  intro a ha
  simp [init] at ha

theorem step_spec (s : Heap) (op : Op) (hInv : Inv s) :
    Inv (step s op).1 ∧ ∀ q, (step s op).2 = some q → q % 8 = s.lo % 8 := by
  cases op with
  | omalloc n ok =>
    obtain ⟨h1, h2⟩ := malloc_spec s n ok hInv
    exact ⟨h1, fun q hq => (h2 q hq).1⟩
  | ofree a => exact ⟨free_inv s a hInv, fun q hq => by simp [step] at hq⟩
  | orealloc a n ok =>
    simp only [step, realloc]
    split
    · exact ⟨free_inv s a hInv, fun q hq => by simp at hq⟩
    split
    · obtain ⟨h1, h2⟩ := malloc_spec s n ok hInv
      exact ⟨h1, fun q hq => (h2 q hq).1⟩
    cases hm : (malloc s n ok).2 with
    | none =>
      simp only [hm]
      exact ⟨(malloc_spec s n ok hInv).1, fun q hq => by simp at hq⟩
    | some q0 =>
      simp only [hm]
      refine ⟨free_inv _ a (malloc_spec s n ok hInv).1, ?_⟩
      intro q hq
      have hq0 : q = q0 := by simpa using hq.symm
      subst hq0
      exact ((malloc_spec s n ok hInv).2 q hm).1
  | ocalloc m n ok =>
    simp only [step, calloc]
    obtain ⟨h1, h2⟩ := malloc_spec s ((m * n) % 2 ^ 64) ok hInv
    exact ⟨h1, fun q hq => (h2 q hq).1⟩

theorem runFrom_spec (ops : List Op) : ∀ s, Inv s →
    Inv (runFrom s ops).1 ∧ (runFrom s ops).1.lo = s.lo ∧
      ∀ o ∈ (runFrom s ops).2, ∀ q, o = some q → q % 8 = s.lo % 8 := by
  induction ops with
  | nil =>
    intro s h
    exact ⟨h, rfl, by simp [runFrom]⟩
  | cons op ops ih =>
    intro s h
    obtain ⟨h1, h2⟩ := step_spec s op h
    obtain ⟨ih1, ih2, ih3⟩ := ih (step s op).1 h1
    simp only [runFrom]
    refine ⟨ih1, by rw [ih2, step_lo], ?_⟩
    intro o ho q hq
    rcases List.mem_cons.mp ho with rfl | ho
    · exact h2 q hq
    · have := ih3 o ho q hq
      rwa [step_lo s op] at this

theorem run_inv (lo : Nat) (ops : List Op) :
    Inv (run lo ops).1 ∧ (run lo ops).1.lo = lo ∧
      ∀ o ∈ (run lo ops).2, ∀ q, o = some q → q % 8 = lo % 8 := by
  have := runFrom_spec ops (init lo) (init_inv lo)
  exact this

end S

namespace RC

theorem take_copied (A B : List Nat) (c k : Nat) (hk : k ≤ c) (hlen : k ≤ A.length) :
    (A.take c ++ B.drop c).take k = A.take k := by
  rw [List.take_append_eq_append_take]
  have h1 : (A.take c).length = min c A.length := List.length_take c A
  have h0 : k - (A.take c).length = 0 := by
    rw [h1]
    omega
  rw [h0, List.take_zero, List.append_nil, List.take_take, Nat.min_def, if_pos hk]

theorem adjustF_ge (n : Nat) : n + 8 ≤ RC.adjustF n := by
  unfold RC.adjustF
  omega

end RC

namespace S

theorem adjust_ge (n : Nat) : n + 4 ≤ adjust n := by
  unfold adjust
  omega

end S

/-- C1: the claim describes the intended propagation of a failed `mem_sbrk`
as null from the three entry points.  `malloc` itself does return null, but
on a reachable state `realloc` with a non-null pointer reaches
`GET_SIZE(GET_HEADER(NULL))` (line 300) and `calloc` reaches
`memset(NULL, 0, bytes)` (line 314): the checked models return `none`,
the marker for executing a null dereference, so the code violates the
claimed behaviour (the spec's own design notes flag the missing null
check). -/
theorem C1_null_propagation_bug :
    (S.malloc (S.run 0 [S.Op.omalloc 1 true]).1 8 false).2 = none ∧
    NullPath.reallocChecked (S.run 0 [S.Op.omalloc 1 true]).1 24 8 false = none ∧
    NullPath.callocChecked (S.run 0 [S.Op.omalloc 1 true]).1 1 1 false = none := by
  refine ⟨?_, ?_, ?_⟩ <;> decide

/-- C3: after any sequence of public operations starting from `mm_init`,
no two blocks adjacent in heap order are both free. -/
theorem C3_no_adjacent_free (lo : Nat) (ops : List S.Op) :
    S.noAdjacentFree (S.run lo ops).1.blocks :=
  S.chainOK_noAdjacentFree (S.run lo ops).1.blocks true (S.run_inv lo ops).1.1

/-- C7 (amended): the single-list search of `src/mm.c` returns the best
fit of the prefix it examines, and `examined` ends with the `MAX_FIT`-th
fitting block or with the non-fitting block that takes the TOTAL non-fit
count past `MAX_NFIT = 28` once at least one fit has been seen — the
counter `nfit_cnt` is incremented on every non-fitting block, including
those seen before the first fit, and the early return fires on the 29th,
not after 28 post-fit non-fits as the claim states. -/
theorem C7_examined_best_fit (req : Nat) (l : List (Nat × Nat)) :
    MMC.allocate req l =
      Fit.bestOf none ((MMC.examined req l 0 0).filter (Fit.fitsReq req)) :=
  MMC.allocGo_eq_examined req l none 0 0

/-- C7 counterexample: on one fitting block followed by exactly 28
non-fitting blocks and then a better fit, the code keeps searching (the
28 post-fit non-fits do not trigger the early return) and finds the later
block, while the claim-side rule stops at the 28th post-fit non-fit and
returns the first block. -/
theorem C7_nfit_rule_cx :
    MMC.allocate 40 cxL7 = some (29, 40) ∧
    ClaimC7.searchTop 40 cxL7 = some (0, 100) ∧
    Fit.nonfitCount 40 cxL7 = 28 := by
  refine ⟨?_, ?_, ?_⟩ <;> decide

/-- C9: `calloc` of `src/mm.c` computes its request as `m * n` in
`size_t`, wrapping modulo `2 ^ 64` with no overflow check; for `m = 2`,
`n = 2 ^ 63 + 4` the wrapped request is 8 bytes, the call succeeds, and
the heap it returns is smaller than the mathematical product. -/
theorem C9_calloc_overflow :
    (∀ s m n ok, S.calloc s m n ok = S.malloc s ((m * n) % 2 ^ 64) ok) ∧
    ∃ m n q, 2 ^ 64 ≤ m * n ∧ (S.calloc (S.init 0) m n true).2 = some q ∧
      S.sumSizes (S.calloc (S.init 0) m n true).1.blocks < m * n := by
  refine ⟨fun s m n ok => rfl, 2, 2 ^ 63 + 4, 24, ?_, ?_, ?_⟩ <;> decide

/-- C2 (amended): each placement search is a bounded best-fit over its
traversal, but the constants are the reverse of the claim: the SEGREGATED
variant (`src/unnamed/part_001`) and the single-list variant with footers
(`src/unnamed/part_000`) cap the count of examined fitting blocks at 42,
while the single-list variant `src/mm.c` caps it at `MAX_FIT = 6` (and its
equality with the bounded best fit additionally needs the traversal's
non-fit count to stay within `MAX_NFIT`, or the search stops early). -/
theorem C2_bounded_best_fit (req : Nat) (l : List (Nat × Nat))
    (fb : List (List (Nat × Nat))) (hwf : P1.WF fb)
    (hnf : Fit.nonfitCount req l ≤ MMC.MAX_NFIT) :
    P0.allocate req l = Fit.boundedBestFit 42 req l ∧
    P1.allocate req fb = Fit.boundedBestFit 42 req (P1.traversal req fb) ∧
    MMC.allocate req l = Fit.boundedBestFit MMC.MAX_FIT req l := by
  refine ⟨?_, P1.allocate_eq_of_wf req fb hwf, ?_⟩
  · unfold P0.allocate Fit.boundedBestFit
    have h := P0.allocGo_eq req l none 0 (by omega)
    simpa using h
  · unfold MMC.allocate Fit.boundedBestFit
    have h := MMC.allocGo_eq_bounded req l none 0 0 (by decide) (by simpa using hnf)
    simpa using h

theorem C2_bounded_best_fit_witness :
    P1.WF [] ∧ Fit.nonfitCount 16 [(0, 24)] ≤ MMC.MAX_NFIT ∧
      (P0.allocate 16 [(0, 24)] = Fit.boundedBestFit 42 16 [(0, 24)] ∧
       P1.allocate 16 [] = Fit.boundedBestFit 42 16 (P1.traversal 16 []) ∧
       MMC.allocate 16 [(0, 24)] = Fit.boundedBestFit MMC.MAX_FIT 16 [(0, 24)]) := by
  have hwf : P1.WF [] := by
    intro i x hx
    simp [List.getD] at hx
  exact ⟨hwf, by decide, C2_bounded_best_fit 16 [(0, 24)] [] hwf (by decide)⟩

/-- C2 counterexample: a well-formed segregated free-list state whose
class 3 holds seven blocks all fitting a request of 66: the code of
`src/unnamed/part_001` examines all seven (its cap is 42) and returns the
seventh, while a `MAX_FIT = 6` search, as the claim assigns to the
segregated variant, would stop after six and return the sixth. -/
theorem C2_maxfit_swapped_cx :
    P1.WF cxFB ∧
    P1.allocate 66 cxFB = some (6, 70) ∧
    Fit.boundedBestFit 6 66 (P1.traversal 66 cxFB) = some (5, 90) := by
  refine ⟨?_, by decide, by decide⟩
  intro i x hx
  by_cases hi : 4 ≤ i
  · rw [List.getD_eq_default _ _ (by simpa [cxFB] using hi)] at hx
    simp at hx
  · interval_cases i
    · simp [cxFB] at hx
    · simp [cxFB] at hx
    · simp [cxFB] at hx
    · fin_cases hx <;> decide

/-- C4: a successful `reallocate` preserves the payload byte prefix: the
copy length `MIN(oldsize, newsize) - WSIZE` of `src/mm.c` (one word of
overhead, footerless) and `MIN(oldsize, newsize) - DSIZE` of
`src/unnamed/part_000` (two words, with footer) both cover the first
`min(n, n')` payload bytes, `n` being the old block's effective capacity
and `n'` the request, because the new block's adjusted size exceeds the
request by at least the overhead. -/
theorem C4_realloc_copies_payload (oldData newData oldDataF newDataF : List Nat)
    (oldBlk oldBlkF n' : Nat)
    (hlen : oldBlk - 4 ≤ oldData.length) (hlenF : oldBlkF - 8 ≤ oldDataF.length) :
    (RC.newPayload oldData newData oldBlk (S.adjust n')).take (min (oldBlk - 4) n') =
      oldData.take (min (oldBlk - 4) n') ∧
    (RC.newPayloadF oldDataF newDataF oldBlkF (RC.adjustF n')).take (min (oldBlkF - 8) n') =
      oldDataF.take (min (oldBlkF - 8) n') := by
  constructor
  · unfold RC.newPayload
    apply RC.take_copied
    · unfold RC.copyLen
      have h := S.adjust_ge n'
      omega
    · omega
  · unfold RC.newPayloadF
    apply RC.take_copied
    · unfold RC.copyLenF
      have h := RC.adjustF_ge n'
      omega
    · omega

theorem C4_realloc_copies_payload_witness :
    (8 : Nat) - 4 ≤ ([1, 2, 3, 4] : List Nat).length ∧
    (12 : Nat) - 8 ≤ ([5, 6, 7, 8] : List Nat).length ∧
    ((RC.newPayload [1, 2, 3, 4] [9, 9, 9, 9, 9, 9, 9, 9, 9, 9, 9, 9] 8
        (S.adjust 2)).take (min (8 - 4) 2) = ([1, 2, 3, 4] : List Nat).take (min (8 - 4) 2) ∧
     (RC.newPayloadF [5, 6, 7, 8] [9, 9, 9, 9, 9, 9, 9, 9, 9, 9, 9, 9] 12
        (RC.adjustF 2)).take (min (12 - 8) 2) =
          ([5, 6, 7, 8] : List Nat).take (min (12 - 8) 2)) :=
  ⟨by decide, by decide,
    C4_realloc_copies_payload [1, 2, 3, 4] [9, 9, 9, 9, 9, 9, 9, 9, 9, 9, 9, 9]
      [5, 6, 7, 8] [9, 9, 9, 9, 9, 9, 9, 9, 9, 9, 9, 9] 8 12 2 (by decide) (by decide)⟩

/-- C5: a successful heap extension performs exactly the claimed writes:
the new block's header at the previous epilogue's position, packing the
rounded byte count with the previous epilogue's PREV_ALLOC bit, a footer
at the block's end, a fresh epilogue word `PACK(0, 1)` immediately after,
and the block (payload pointer `heapEnd + 4`) is then handed to the
coalescer. -/
theorem C5_extend_writes (hp : Nat) (m : W.Mem) (fb heapEnd words : Nat)
    (hw : 0 < words) (hws : words < 2 ^ 29) :
    W.extendHeap hp (m, fb) heapEnd words true =
      some ((W.mergeFreeBlocks hp
          (W.WRITE (W.WRITE (W.WRITE m heapEnd
              (W.PACK (W.roundWords words) (W.GET_PREALLOC m heapEnd)))
            (heapEnd + W.roundWords words - 4) (W.PACK (W.roundWords words) 0))
            (heapEnd + W.roundWords words) (W.PACK 0 1), fb)
          (heapEnd + 4)).1,
        heapEnd + W.roundWords words,
        (W.mergeFreeBlocks hp
          (W.WRITE (W.WRITE (W.WRITE m heapEnd
              (W.PACK (W.roundWords words) (W.GET_PREALLOC m heapEnd)))
            (heapEnd + W.roundWords words - 4) (W.PACK (W.roundWords words) 0))
            (heapEnd + W.roundWords words) (W.PACK 0 1), fb)
          (heapEnd + 4)).2) :=
  W.extendHeap_hand hp (m, fb) heapEnd words true _ _ _
    (W.extendWrites_spec hp m fb heapEnd words hw hws)

theorem C5_extend_writes_witness :
    0 < 4 ∧ 4 < 2 ^ 29 ∧
      W.extendHeap 0 (zeroMem, 0) 20 4 true =
        some ((W.mergeFreeBlocks 0
            (W.WRITE (W.WRITE (W.WRITE zeroMem 20
                (W.PACK (W.roundWords 4) (W.GET_PREALLOC zeroMem 20)))
              (20 + W.roundWords 4 - 4) (W.PACK (W.roundWords 4) 0))
              (20 + W.roundWords 4) (W.PACK 0 1), 0)
            (20 + 4)).1,
          20 + W.roundWords 4,
          (W.mergeFreeBlocks 0
            (W.WRITE (W.WRITE (W.WRITE zeroMem 20
                (W.PACK (W.roundWords 4) (W.GET_PREALLOC zeroMem 20)))
              (20 + W.roundWords 4 - 4) (W.PACK (W.roundWords 4) 0))
              (20 + W.roundWords 4) (W.PACK 0 1), 0)
            (20 + 4)).2) :=
  ⟨by decide, by decide, C5_extend_writes 0 zeroMem 0 20 4 (by decide) (by decide)⟩

/-- C6 (amended): in the footerless variant `src/mm.c`, when `_build`
splits a free block it DOES write a footer word into the allocated
portion: line 166 executes `PUT(GET_FOOTER(ptr), PACK(size, 1))` after the
header has been rewritten to `size`, so the word at offset `size - DSIZE`
from the block start is written with `PACK(size, 1)` — the claim's frame
property ("the word is left unwritten by build") is false. -/
theorem C6_split_footer_written (hp : Nat) (m : W.Mem) (ptr size blksize : Nat)
    (hptr : 8 ≤ ptr) (hs8 : size % 8 = 0) (hb8 : blksize % 8 = 0)
    (hs16 : 16 ≤ size) (hsplit : size + 16 < blksize) (hb32 : blksize < 2 ^ 32)
    (hsz : W.GET_SIZE m (ptr - 4) = blksize)
    (hlink : W.READ m (ptr + 4) = 0)
    (hsucc : W.READ m (ptr + blksize - 4) % 2 = 1) :
    (W.build hp (m, ptr) ptr size).1 (ptr + size - 8) = W.PACK size 1 :=
  W.build_split_footer hp m ptr size blksize hptr hs8 hb8 hs16 hsplit hb32 hsz hlink hsucc

theorem C6_split_footer_written_witness :
    8 ≤ 8 ∧ 16 % 8 = 0 ∧ 48 % 8 = 0 ∧ 16 ≤ 16 ∧ 16 + 16 < 48 ∧ 48 < 2 ^ 32 ∧
      W.GET_SIZE cxMem (8 - 4) = 48 ∧ W.READ cxMem (8 + 4) = 0 ∧
      W.READ cxMem (8 + 48 - 4) % 2 = 1 ∧
      (W.build 0 (cxMem, 8) 8 16).1 (8 + 16 - 8) = W.PACK 16 1 :=
  ⟨by decide, by decide, by decide, by decide, by decide, by decide, by decide,
    by decide, by decide,
    C6_split_footer_written 0 cxMem 8 16 48 (by decide) (by decide) (by decide)
      (by decide) (by decide) (by decide) (by decide) (by decide) (by decide)⟩

/-- C6 counterexample: on the concrete split `cxMem` (free block of 48
bytes at payload pointer 8, allocation of 16), the word at offset
`size - DSIZE = 8` from the block start (address 16) was 0 before `_build`
and holds `PACK(16, 1) = 17` after: `_build` does write into the allocated
portion's footer slot. -/
theorem C6_footer_frame_cx :
    cxMem (8 + 16 - 8) = 0 ∧ (W.build 0 (cxMem, 8) 8 16).1 (8 + 16 - 8) = 17 := by
  refine ⟨?_, ?_⟩ <;> decide

/-- C8: with an 8-byte-aligned heap base, every payload pointer any
public operation returns is 8-byte aligned, for every operation
sequence. -/
theorem C8_alignment (lo : Nat) (h8 : lo % 8 = 0) (ops : List S.Op) :
    ∀ o ∈ (S.run lo ops).2, ∀ q, o = some q → q % 8 = 0 := by
  intro o ho q hq
  have h := (S.run_inv lo ops).2.2 o ho q hq
  omega

theorem C8_alignment_witness :
    (0 : Nat) % 8 = 0 ∧ some 24 ∈ (S.run 0 [S.Op.omalloc 1 true]).2 ∧ (24 : Nat) % 8 = 0 :=
  ⟨by decide, by decide,
    C8_alignment 0 (by decide) [S.Op.omalloc 1 true] (some 24) (by decide) 24 rfl⟩

/-- C10: a successful `realloc` on a non-null allocated pointer with a
positive size returns a different pointer: the old block stays allocated
and off the free list throughout the inner `malloc`, and every pointer
`malloc` can produce — a free-list entry or the freshly extended block —
is the payload address of a block that is free at selection time, so it
cannot equal the old pointer. -/
theorem C10_realloc_fresh_pointer (s : S.Heap) (hInv : S.Inv s) (a n : Nat) (ok : Bool)
    (i : Nat) (ha0 : a ≠ 0) (hn : n ≠ 0)
    (hidx : S.idxOfAddr s a = some i)
    (halloc : (s.blocks.getD i S.dummy).alloc = true)
    (q : Nat) (hq : (S.realloc s a n ok).2 = some q) : q ≠ a := by
  simp only [S.realloc, if_neg hn, if_neg ha0] at hq
  cases hm : (S.malloc s n ok).2 with
  | none =>
    simp only [hm] at hq
    exact absurd hq (by simp)
  | some q0 =>
    simp only [hm] at hq
    have hqq : q = q0 := by simpa using hq.symm
    subst hqq
    rcases S.idxOfAddr_mem s a i hidx with ⟨hlt, haddr⟩
    have h2 := ((S.malloc_spec s n ok hInv).2 q hm).2 i hlt halloc
    intro hqa
    exact h2 (hqa.trans haddr)

theorem C10_realloc_fresh_pointer_witness :
    S.Inv (S.run 0 [S.Op.omalloc 1 true]).1 ∧ (24 : Nat) ≠ 0 ∧ (8 : Nat) ≠ 0 ∧
      S.idxOfAddr (S.run 0 [S.Op.omalloc 1 true]).1 24 = some 0 ∧
      ((S.run 0 [S.Op.omalloc 1 true]).1.blocks.getD 0 S.dummy).alloc = true ∧
      (S.realloc (S.run 0 [S.Op.omalloc 1 true]).1 24 8 true).2 = some 40 ∧
      (40 : Nat) ≠ 24 :=
  ⟨⟨by decide, by decide, by decide, by decide⟩, by decide, by decide, by decide,
    by decide, by decide,
    C10_realloc_fresh_pointer (S.run 0 [S.Op.omalloc 1 true]).1
      ⟨by decide, by decide, by decide, by decide⟩ 24 8 true 0
      (by decide) (by decide) (by decide) (by decide) 40 (by decide)⟩
